import Mathlib

/-!
Verification of the object-map builder and query layer of the Spatial_SLAM_LLM
repository (`slam_vlm/scripts/vlm_object_map.py` and
`slam_vlm/scripts/spatial_object_model.py`), as a shallow embedding.

Modelling conventions:
* numpy float arithmetic is embedded over an abstract linear ordered field `K`
  (instantiated with `ℚ` or `ℝ` in concrete statements); `np.sqrt` /
  `np.linalg.norm` are modelled by an explicit `sqrt : K → K` parameter,
  instantiated with `Real.sqrt` where the numeric value of a norm matters;
* numpy 1-d float arrays (CLIP embeddings) are `List K`; 3-d points are `Vec3 K`;
* Python `set` objects of point indices are `Finset ℕ`;
* the insertion-ordered Python dict produced by `build_vlm_object_map` is an
  association list `List (String × ObjectRecord K)`;
* fallible operations (`distance_between_objects` raising `ValueError`) return
  `Except String _`; `dict.get` returning `None` is `Option`.
-/

section Defs

variable {K : Type} [LinearOrderedField K]

/-- A 3-d point / vector (a row of a numpy `(N, 3)` array). -/
structure Vec3 (K : Type) where
  x : K
  y : K
  z : K
deriving DecidableEq, Repr

/-- Componentwise vector addition. -/
def vadd (a b : Vec3 K) : Vec3 K := ⟨a.x + b.x, a.y + b.y, a.z + b.z⟩

/-- Componentwise vector subtraction. -/
def vsub (a b : Vec3 K) : Vec3 K := ⟨a.x - b.x, a.y - b.y, a.z - b.z⟩

/-- Scalar multiplication of a 3-vector. -/
def vsmul (c : K) (a : Vec3 K) : Vec3 K := ⟨c * a.x, c * a.y, c * a.z⟩

/-- Dot product of two 3-vectors. -/
def dot3 (a b : Vec3 K) : K := a.x * b.x + a.y * b.y + a.z * b.z

/-- Sum of a list of 3-vectors (`np.sum(axis=0)`). -/
def vsum (l : List (Vec3 K)) : Vec3 K := l.foldr vadd ⟨0, 0, 0⟩

/-- Mean of a list of 3-vectors (`pts.mean(axis=0)`). -/
def vmean (l : List (Vec3 K)) : Vec3 K := vsmul (1 / (l.length : K)) (vsum l)

/-- `np.linalg.norm(a - b)`: Euclidean distance between two 3-d points,
with the square root passed explicitly. -/
def dist3 (sqrt : K → K) (a b : Vec3 K) : K := sqrt (dot3 (vsub a b) (vsub a b))

/-- Dot product of two 1-d arrays (`np.dot`). -/
def dotV (a b : List K) : K := (List.zipWith (fun u v => u * v) a b).sum

/-- `np.linalg.norm(v)` for a 1-d array. -/
def normV (sqrt : K → K) (v : List K) : K := sqrt (dotV v v)

/-- Scalar multiplication of a 1-d array. -/
def smulV (c : K) (v : List K) : List K := v.map (fun a => c * a)

/-- Componentwise addition of two 1-d arrays. -/
def addV (a b : List K) : List K := List.zipWith (fun u v => u + v) a b

/-- Division of a 1-d array by a scalar. -/
def divScalarV (v : List K) (s : K) : List K := v.map (fun a => a / s)

/-- The literal `1e-8` used both by `cosine_similarity` and by the embedding
renormalization in `build_vlm_object_map`. -/
def eps8 (K : Type) [LinearOrderedField K] : K := 1 / 100000000

/-- `cosine_similarity(a, b, eps=1e-8)` from `vlm_object_map.py`:
`np.dot(a, b) / (np.linalg.norm(a) * np.linalg.norm(b) + eps)`. -/
def cosineSimilarity (sqrt : K → K) (a b : List K) : K :=
  dotV a b / (normV sqrt a * normV sqrt b + eps8 K)

/-- A pixel bounding box `(x1, y1, x2, y2)`. -/
structure BBox (K : Type) where
  x1 : K
  y1 : K
  x2 : K
  y2 : K
deriving DecidableEq, Repr

/-- One per-frame detection produced by `vlm_detect_and_segment` (treated as a
black box): label, confidence score, pixel bbox, optional pixel mask and a CLIP
embedding.  The mask is modelled as a boolean predicate over (row, column)
pixels at image resolution; in this repository `vlm_detect_and_segment` always
emits `mask = None`. -/
structure Detection (K : Type) where
  label : String
  score : K
  bbox : BBox K
  mask : Option (Nat → Nat → Bool)
  feat : List K

/-- The mutable per-object track of `vlm_object_map.py` (`class ObjectTrack`). -/
structure ObjectTrack (K : Type) where
  id : Nat
  label : String
  center3d : Vec3 K
  feat : List K
  lastSeen : Nat
  pointIndices : Finset Nat
  numObs : Nat
  firstFrameIdx : Nat
  firstBbox : Option (BBox K)
  firstFramePath : Option String
deriving DecidableEq

/-- `ObjectTrack.__init__`: a fresh track from one detection
(`num_obs = 1`, first-detection snapshot frozen from the creating frame). -/
def mkObjectTrack (trackId : Nat) (label : String) (center3d : Vec3 K)
    (feat : List K) (frameIdx : Nat) (initIndices : Finset Nat)
    (firstBbox : Option (BBox K)) (firstFramePath : Option String) :
    ObjectTrack K :=
  { id := trackId
    label := label
    center3d := center3d
    feat := feat
    lastSeen := frameIdx
    pointIndices := initIndices
    numObs := 1
    firstFrameIdx := frameIdx
    firstBbox := firstBbox
    firstFramePath := firstFramePath }

/-- The loop body of `match_to_tracks`: one candidate track is run through the
label gate, the appearance gate (`sim < cos_thresh`), the geometry gate
(`dist > dist_thresh`), and, surviving all three, scored as
`score = sim - 0.01 * dist`; the accumulator `(best_track, best_score)` is
replaced only on a strict improvement. -/
def matchStep (sqrt : K → K) (det : Detection K) (center3d : Vec3 K)
    (cosThresh distThresh : K) (acc : Option (ObjectTrack K) × K)
    (tr : ObjectTrack K) : Option (ObjectTrack K) × K :=
  if tr.label.trim.toLower ≠ det.label.trim.toLower then acc
  else
    let sim := cosineSimilarity sqrt det.feat tr.feat
    if sim < cosThresh then acc
    else
      let dist := dist3 sqrt center3d tr.center3d
      if dist > distThresh then acc
      else
        let score := sim - 1 / 100 * dist
        if score > acc.2 then (some tr, score) else acc

/-- `match_to_tracks(detection, center_3d, tracks, frame_idx, cos_thresh=0.75,
dist_thresh=5.0)`: greedy three-gate association, starting from
`best_track = None`, `best_score = -1.0`.  `frameIdx` is accepted and unused,
as in the source. -/
def matchToTracks (sqrt : K → K) (det : Detection K) (center3d : Vec3 K)
    (tracks : List (ObjectTrack K)) (_frameIdx : Nat)
    (cosThresh distThresh : K) : Option (ObjectTrack K) :=
  (tracks.foldl (matchStep sqrt det center3d cosThresh distThresh)
    (none, -1)).1

/-- The renormalization applied to the fused embedding:
`feat / (np.linalg.norm(feat) + 1e-8)`. -/
def renormalize (sqrt : K → K) (v : List K) : List K :=
  divScalarV v (normV sqrt v + eps8 K)

/-- The matched-track update of `build_vlm_object_map` (EMA fusion):
`alpha = 1 / (num_obs + 1)`; EMA of centroid and embedding, embedding
renormalized; `last_seen` set to the current frame; `num_obs` incremented;
point indices unioned with the detection's. -/
def updateTrack (sqrt : K → K) (matched : ObjectTrack K) (detFeat : List K)
    (center3d : Vec3 K) (objIndices : Finset Nat) (frameIdx : Nat) :
    ObjectTrack K :=
  let alpha : K := 1 / ((matched.numObs : K) + 1)
  let fusedFeat := addV (smulV (1 - alpha) matched.feat) (smulV alpha detFeat)
  { matched with
    center3d := vadd (vsmul (1 - alpha) matched.center3d) (vsmul alpha center3d)
    feat := renormalize sqrt fusedFeat
    lastSeen := frameIdx
    numObs := matched.numObs + 1
    pointIndices := matched.pointIndices ∪ objIndices }

/-- Camera intrinsics and image size (`FX, FY, CX, CY, IMG_W, IMG_H` from the
configuration module the script imports). -/
structure Intrinsics (K : Type) where
  fx : K
  fy : K
  cx : K
  cy : K
  imgW : K
  imgH : K

/-- A 3×3 rotation, stored by rows (the `R_cw = T_cw[:3, :3]` slice). -/
structure Mat3 (K : Type) where
  r0 : Vec3 K
  r1 : Vec3 K
  r2 : Vec3 K

/-- Matrix-vector product (a row of `pts_w @ R_cw.T`). -/
def matApply (R : Mat3 K) (p : Vec3 K) : Vec3 K :=
  ⟨dot3 R.r0 p, dot3 R.r1 p, dot3 R.r2 p⟩

/-- A world→camera pose: the `R_cw`, `t_cw` slices of one `T_cw` matrix. -/
structure Pose (K : Type) where
  rot : Mat3 K
  t : Vec3 K

/-- The `1e-6` clamp on the projective-division denominator in
`project_points`. -/
def epsDepth (K : Type) [LinearOrderedField K] : K := 1 / 1000000

/-- The hardcoded `0.1` minimum depth of `project_points`
(`valid = z_safe > 0.1`). -/
def minDepth (K : Type) [LinearOrderedField K] : K := 1 / 10

/-- `MAX_DEPTH = 30.0` from `vlm_object_map.py` (shadowing the config value). -/
def maxDepthC (K : Type) [LinearOrderedField K] : K := 30

/-- `MAX_FRAMES = 2000` from `vlm_object_map.py`. -/
def maxFramesC : Nat := 2000

/-- Per-point output of `project_points`: pixel coordinates, the (clamped)
depth `z_safe`, and the validity flag. -/
structure Projected (K : Type) where
  u : K
  v : K
  depth : K
  valid : Bool
deriving DecidableEq, Repr

/-- One point of `project_points(K, R_cw, t_cw, pts_w)`:
`X_c = R_cw · p + t_cw`; `z_safe` clamps `z` to `1e-6` when `|z| < 1e-6`;
`valid = (z_safe > 0.1) ∧ pixel ∈ [0, IMG_W) × [0, IMG_H)`. -/
def projectPoint (cam : Intrinsics K) (R : Mat3 K) (t : Vec3 K) (p : Vec3 K) :
    Projected K :=
  let Xc := vadd (matApply R p) t
  let z := Xc.z
  let zSafe := if |z| < epsDepth K then epsDepth K else z
  let u := cam.fx * (Xc.x / zSafe) + cam.cx
  let v := cam.fy * (Xc.y / zSafe) + cam.cy
  let valid := decide (zSafe > minDepth K) &&
    (decide (u ≥ 0) && decide (u < cam.imgW) &&
     decide (v ≥ 0) && decide (v < cam.imgH))
  ⟨u, v, zSafe, valid⟩

/-- `project_points` over the whole map-point array. -/
def projectPoints (cam : Intrinsics K) (R : Mat3 K) (t : Vec3 K)
    (ptsW : List (Vec3 K)) : List (Projected K) :=
  ptsW.map (projectPoint cam R t)

/-- The call-site filter
`valid_idx = np.where(valid & (depth < MAX_DEPTH))[0]` together with
`uv_valid = uv[valid_idx]`: the surviving original indices paired with their
projections. -/
def validProjections (cam : Intrinsics K) (R : Mat3 K) (t : Vec3 K)
    (ptsW : List (Vec3 K)) (maxDepth : K) : List (Nat × Projected K) :=
  (projectPoints cam R t ptsW).enum.filter
    (fun pr => pr.2.valid && decide (pr.2.depth < maxDepth))

/-- The box test of `mask_points_in_detection`
(`u1 ≤ u ≤ u2 ∧ v1 ≤ v ≤ v2`, both ends inclusive). -/
def inBox (b : BBox K) (u v : K) : Bool :=
  decide (u ≥ b.x1) && decide (u ≤ b.x2) &&
  decide (v ≥ b.y1) && decide (v ≤ b.y2)

/-- `mask_points_in_detection(uv_valid, valid_idx, det, img_shape)`: the
original indices of the valid projected points falling inside the detection's
bbox, further intersected with the pixel mask when one is present (the mask is
modelled at image resolution, as after the nearest-neighbour resize; pixel
lookup truncates the coordinates).  In this repository detections always carry
`mask = None`. -/
def maskPointsInDetection [FloorRing K] (uvValid : List (Nat × Projected K))
    (det : Detection K) : List Nat :=
  let inBoxL := uvValid.filter (fun pr => inBox det.bbox pr.2.u pr.2.v)
  match det.mask with
  | none => inBoxL.map (fun pr => pr.1)
  | some m =>
      (inBoxL.filter (fun pr => m (Int.toNat ⌊pr.2.v⌋) (Int.toNat ⌊pr.2.u⌋))).map
        (fun pr => pr.1)

/-- One image of the input sequence: its path, whether `cv2.imread`
succeeded (`img is None` check), and the detections
`vlm_detect_and_segment` produces on it (external model, black box). -/
structure FrameImage (K : Type) where
  path : String
  loaded : Bool
  dets : List (Detection K)

/-- The online state of `build_vlm_object_map`: the track list (append-ordered,
so earliest-created first) and the next monotonic track id. -/
structure BuildState (K : Type) where
  tracks : List (ObjectTrack K)
  nextTrackId : Nat

/-- The per-detection body of the frame loop in `build_vlm_object_map`:
skip low-score detections (`score < 0.25`), assign map points, skip when no
point is assigned, compute the detection centroid, run `match_to_tracks`
(defaults `cos_thresh=0.75`, `dist_thresh=5.0`), then either create a new
track (appending it, incrementing the id counter) or update the matched track
in place. -/
def processDetection [FloorRing K] (sqrt : K → K) (mapPts : List (Vec3 K))
    (uvValid : List (Nat × Projected K)) (imgPath : String) (frameIdx : Nat)
    (st : BuildState K) (det : Detection K) : BuildState K :=
  if det.score < 1 / 4 then st
  else
    let objIndices := maskPointsInDetection uvValid det
    if objIndices.isEmpty then st
    else
      let ptsObj := objIndices.map (fun i => mapPts.getD i ⟨0, 0, 0⟩)
      let center3d := vmean ptsObj
      match matchToTracks sqrt det center3d st.tracks frameIdx (3 / 4) 5 with
      | none =>
          let tr := mkObjectTrack st.nextTrackId det.label center3d det.feat
            frameIdx objIndices.toFinset (some det.bbox) (some imgPath)
          { tracks := st.tracks ++ [tr], nextTrackId := st.nextTrackId + 1 }
      | some m =>
          { st with
            tracks := st.tracks.map (fun t =>
              if t.id = m.id then
                updateTrack sqrt t det.feat center3d objIndices.toFinset frameIdx
              else t) }

/-- One iteration of the frame loop: skip unloadable images, skip frames with
no detection, project the shared map points through this frame's pose, skip
frames with no valid projected point, then fold the detections. -/
def processFrame [FloorRing K] (sqrt : K → K) (cam : Intrinsics K)
    (mapPts : List (Vec3 K)) (st : BuildState K) (frameIdx : Nat)
    (pose : Pose K) (img : FrameImage K) : BuildState K :=
  if !img.loaded then st
  else if img.dets.isEmpty then st
  else
    let uvValid := validProjections cam pose.rot pose.t mapPts (maxDepthC K)
    if uvValid.isEmpty then st
    else img.dets.foldl (processDetection sqrt mapPts uvValid img.path frameIdx) st

/-- The frame loop of `build_vlm_object_map`:
`N = min(len(T_all), len(img_files), MAX_FRAMES)` frames are processed in
order starting from the empty state.  (`zip` truncates to the shorter of the
two input streams, and `take maxFramesC` caps the count at `MAX_FRAMES`.) -/
def runFrames [FloorRing K] (sqrt : K → K) (cam : Intrinsics K)
    (mapPts : List (Vec3 K)) (poses : List (Pose K))
    (imgs : List (FrameImage K)) : BuildState K :=
  (((poses.zip imgs).take maxFramesC).enum).foldl
    (fun st pr => processFrame sqrt cam mapPts st pr.1 pr.2.1 pr.2.2)
    ⟨[], 0⟩

/-- The immutable per-object record emitted at finalize time; one entry of the
saved object map, with exactly the fields written by `build_vlm_object_map`. -/
structure ObjectRecord (K : Type) where
  label : String
  center : Vec3 K
  indices : List Nat
  numPoints : Nat
  bboxMin : Vec3 K
  bboxMax : Vec3 K
  numObs : Nat
  firstFrameIdx : Nat
  firstBbox : Option (BBox K)
  firstFramePath : Option String
  position : Vec3 K
  size : Vec3 K
  pointCloud : List (Vec3 K)
deriving DecidableEq

/-- Minimum of a nonempty collection given as head plus tail
(`np.min` over a nonempty array). -/
def listMin (a : K) (l : List K) : K := l.foldl min a

/-- Maximum of a nonempty collection given as head plus tail
(`np.max` over a nonempty array). -/
def listMax (a : K) (l : List K) : K := l.foldl max a

/-- Coordinatewise minimum of a nonempty point list (`pts.min(axis=0)`). -/
def coordMin (p : Vec3 K) (ps : List (Vec3 K)) : Vec3 K :=
  ⟨listMin p.x (ps.map Vec3.x), listMin p.y (ps.map Vec3.y),
   listMin p.z (ps.map Vec3.z)⟩

/-- Coordinatewise maximum of a nonempty point list (`pts.max(axis=0)`). -/
def coordMax (p : Vec3 K) (ps : List (Vec3 K)) : Vec3 K :=
  ⟨listMax p.x (ps.map Vec3.x), listMax p.y (ps.map Vec3.y),
   listMax p.z (ps.map Vec3.z)⟩

/-- The point of the shared cloud at a given index (`map_pts[i]`; indices
emitted by the projector are in range, so the default is never read). -/
def ptAt (mapPts : List (Vec3 K)) (i : Nat) : Vec3 K := mapPts.getD i ⟨0, 0, 0⟩

/-- Finalization of one track in `build_vlm_object_map`:
`idx = np.array(sorted(track.point_indices))`; tracks with an empty point set
are skipped; otherwise one record keyed by `f"{label}_{id}"` whose geometric
fields are recomputed from the full aggregated point set
(`pts = map_pts[idx]`) — not from the EMA centroid. -/
def finalizeTrack (mapPts : List (Vec3 K)) (tr : ObjectTrack K) :
    Option (String × ObjectRecord K) :=
  match tr.pointIndices.sort (· ≤ ·) with
  | [] => none
  | i :: is =>
      let idx := i :: is
      let pts := idx.map (ptAt mapPts)
      let center := vmean pts
      let bboxMin := coordMin (ptAt mapPts i) (is.map (ptAt mapPts))
      let bboxMax := coordMax (ptAt mapPts i) (is.map (ptAt mapPts))
      some (tr.label ++ "_" ++ Nat.repr tr.id,
        { label := tr.label
          center := center
          indices := idx
          numPoints := pts.length
          bboxMin := bboxMin
          bboxMax := bboxMax
          numObs := tr.numObs
          firstFrameIdx := tr.firstFrameIdx
          firstBbox := tr.firstBbox
          firstFramePath := tr.firstFramePath
          position := center
          size := vsub bboxMax bboxMin
          pointCloud := pts })

/-- The final `object_map` dict built from the finished tracks, as an
insertion-ordered association list. -/
def buildObjectMapFromTracks (mapPts : List (Vec3 K))
    (tracks : List (ObjectTrack K)) : List (String × ObjectRecord K) :=
  tracks.filterMap (finalizeTrack mapPts)

/-- `build_vlm_object_map()` end to end: run the frame loop, then finalize the
surviving tracks into the keyed object map (the map the script then saves with
`np.save`). -/
def buildVlmObjectMap [FloorRing K] (sqrt : K → K) (cam : Intrinsics K)
    (poses : List (Pose K)) (imgs : List (FrameImage K))
    (mapPts : List (Vec3 K)) : List (String × ObjectRecord K) :=
  buildObjectMapFromTracks mapPts (runFrames sqrt cam mapPts poses imgs).tracks

/-- The field-by-field copy performed by `SpatialObjectModel.__init__`, which
rebuilds each loaded record with `obj.get(...)` for exactly the thirteen keys
the builder wrote. -/
def loadRecord (o : ObjectRecord K) : ObjectRecord K :=
  { label := o.label
    center := o.center
    indices := o.indices
    numPoints := o.numPoints
    bboxMin := o.bboxMin
    bboxMax := o.bboxMax
    numObs := o.numObs
    firstFrameIdx := o.firstFrameIdx
    firstBbox := o.firstBbox
    firstFramePath := o.firstFramePath
    position := o.position
    size := o.size
    pointCloud := o.pointCloud }

/-- The read-only query layer (`class SpatialObjectModel`): the `self.objects`
dict, as a keyed association list. -/
structure SpatialObjectModel (K : Type) where
  objects : List (String × ObjectRecord K)

/-- `SpatialObjectModel.__init__(object_map_path)`: the persisted map is
loaded back (the `np.save`/`np.load` pickle round trip of the keyed record
dict is modelled as the identity on the association list) and every record is
copied field by field into `self.objects`. -/
def SpatialObjectModel.ofMap (m : List (String × ObjectRecord K)) :
    SpatialObjectModel K :=
  ⟨m.map (fun kv => (kv.1, loadRecord kv.2))⟩

/-- `get_object_info(key)`: `self.objects.get(key)` — the record when the key
is present, `None` (modelled as `none`, the NotFound outcome) otherwise. -/
def getObjectInfo (model : SpatialObjectModel K) (key : String) :
    Option (ObjectRecord K) :=
  model.objects.lookup key

/-- `get_object_by_label(label)`: all keys whose record's label matches
case-insensitively. -/
def getObjectByLabel (model : SpatialObjectModel K) (label : String) :
    List String :=
  (model.objects.filter (fun kv => kv.2.label.toLower == label.toLower)).map
    (fun kv => kv.1)

/-- `distance_between_objects(key1, key2)`: Euclidean distance between the two
records' centers (`np.linalg.norm(c1 - c2)`); raises `ValueError` — modelled
as `Except.error` — when either key is absent.  The model is read-only: the
operation is a pure function of the model. -/
def distanceBetweenObjects (sqrt : K → K) (model : SpatialObjectModel K)
    (key1 key2 : String) : Except String K :=
  match getObjectInfo model key1, getObjectInfo model key2 with
  | some obj1, some obj2 => Except.ok (dist3 sqrt obj1.center obj2.center)
  | _, _ =>
      Except.error ("One or both object keys not found: " ++ key1 ++ ", " ++ key2)

/-- The three gates of `match_to_tracks` as a single predicate: label match
after `strip().lower()`, cosine similarity at least `cos_thresh`, centroid
distance at most `dist_thresh`. -/
def passesGates (sqrt : K → K) (det : Detection K) (center3d : Vec3 K)
    (cosThresh distThresh : K) (tr : ObjectTrack K) : Bool :=
  (tr.label.trim.toLower == det.label.trim.toLower) &&
  decide (cosThresh ≤ cosineSimilarity sqrt det.feat tr.feat) &&
  decide (dist3 sqrt center3d tr.center3d ≤ distThresh)

/-- The candidate tracks surviving all three gates, in list (= creation)
order. -/
def gateSurvivors (sqrt : K → K) (det : Detection K) (center3d : Vec3 K)
    (cosThresh distThresh : K) (tracks : List (ObjectTrack K)) :
    List (ObjectTrack K) :=
  tracks.filter (passesGates sqrt det center3d cosThresh distThresh)

/-- The combined score `sim - 0.01 * dist` a surviving candidate receives in
`match_to_tracks`. -/
def trackScore (sqrt : K → K) (det : Detection K) (center3d : Vec3 K)
    (tr : ObjectTrack K) : K :=
  cosineSimilarity sqrt det.feat tr.feat -
    1 / 100 * dist3 sqrt center3d tr.center3d

/-- Proof infrastructure: the `match_to_tracks` loop body abstracted over an
arbitrary gate predicate and score function (gated strict-improvement
argmax step). -/
def selStep {α : Type} (pass : α → Bool) (score : α → K)
    (acc : Option α × K) (a : α) : Option α × K :=
  if pass a then
    (if score a > acc.2 then (some a, score a) else acc)
  else acc

/-- The finalization contract of `build_vlm_object_map`, stated against the
aggregated point sets (not the EMA centroids): every track with a nonempty
point-index set contributes exactly one record, keyed `{label}_{id}`, whose
`center` is the mean of the full aggregated point set, whose `bbox_min` /
`bbox_max` are the attained coordinatewise extrema of that set, whose `size`
is `bbox_max − bbox_min` and whose `num_points` is the set's cardinality;
every emitted record comes from a track with a nonempty point set (empty
tracks are dropped); the emitted keys are pairwise distinct; and the output
is unchanged if every track's EMA centroid is replaced arbitrarily. -/
def FinalizeSpec (mapPts : List (Vec3 K)) (tracks : List (ObjectTrack K)) :
    Prop :=
  (∀ tr ∈ tracks, tr.pointIndices.Nonempty →
    ∃ r : ObjectRecord K,
      (tr.label ++ "_" ++ Nat.repr tr.id, r) ∈
        buildObjectMapFromTracks mapPts tracks ∧
      r.label = tr.label ∧
      r.numObs = tr.numObs ∧
      r.firstFrameIdx = tr.firstFrameIdx ∧
      r.firstBbox = tr.firstBbox ∧
      r.firstFramePath = tr.firstFramePath ∧
      r.numPoints = tr.pointIndices.card ∧
      r.center = vsmul (1 / (tr.pointIndices.card : K))
        ⟨∑ i ∈ tr.pointIndices, (ptAt mapPts i).x,
         ∑ i ∈ tr.pointIndices, (ptAt mapPts i).y,
         ∑ i ∈ tr.pointIndices, (ptAt mapPts i).z⟩ ∧
      r.position = r.center ∧
      (∀ i ∈ tr.pointIndices,
        r.bboxMin.x ≤ (ptAt mapPts i).x ∧ (ptAt mapPts i).x ≤ r.bboxMax.x ∧
        r.bboxMin.y ≤ (ptAt mapPts i).y ∧ (ptAt mapPts i).y ≤ r.bboxMax.y ∧
        r.bboxMin.z ≤ (ptAt mapPts i).z ∧ (ptAt mapPts i).z ≤ r.bboxMax.z) ∧
      ((∃ i ∈ tr.pointIndices, r.bboxMin.x = (ptAt mapPts i).x) ∧
       (∃ i ∈ tr.pointIndices, r.bboxMin.y = (ptAt mapPts i).y) ∧
       (∃ i ∈ tr.pointIndices, r.bboxMin.z = (ptAt mapPts i).z) ∧
       (∃ i ∈ tr.pointIndices, r.bboxMax.x = (ptAt mapPts i).x) ∧
       (∃ i ∈ tr.pointIndices, r.bboxMax.y = (ptAt mapPts i).y) ∧
       (∃ i ∈ tr.pointIndices, r.bboxMax.z = (ptAt mapPts i).z)) ∧
      r.size = vsub r.bboxMax r.bboxMin ∧
      r.pointCloud.length = r.numPoints) ∧
  (∀ kr ∈ buildObjectMapFromTracks mapPts tracks, ∃ tr ∈ tracks,
    tr.pointIndices.Nonempty ∧ kr.1 = tr.label ++ "_" ++ Nat.repr tr.id) ∧
  (buildObjectMapFromTracks mapPts tracks).length =
    (tracks.filter (fun tr => decide (tr.pointIndices ≠ ∅))).length ∧
  ((buildObjectMapFromTracks mapPts tracks).map Prod.fst).Nodup ∧
  (∀ f : ObjectTrack K → Vec3 K,
    buildObjectMapFromTracks mapPts
      (tracks.map (fun t => { t with center3d := f t })) =
    buildObjectMapFromTracks mapPts tracks)

/-- The numeric value of a decimal digit character. -/
def digitVal (c : Char) : Nat := c.toNat - 48

/-- The number denoted by a most-significant-first list of decimal digit
characters. -/
def digitsVal : List Char → Nat
  | [] => 0
  | c :: cs => digitVal c * 10 ^ cs.length + digitsVal cs

end Defs

/-! Concrete inputs used to instantiate the theorems below. -/

/-- Trivial intrinsics: unit focal lengths, centered origin, 10×10 image. -/
def exCam : Intrinsics ℚ := ⟨1, 1, 0, 0, 10, 10⟩

/-- The identity rotation. -/
def exRot : Mat3 ℚ := ⟨⟨1, 0, 0⟩, ⟨0, 1, 0⟩, ⟨0, 0, 1⟩⟩

/-- A camera at the world origin looking down the `z` axis. -/
def exPose : Pose ℚ := ⟨exRot, ⟨0, 0, 0⟩⟩

/-- A full-confidence `chair` detection with a unit-length 1-d embedding. -/
def exDet : Detection ℚ := ⟨"chair", 1, ⟨0, 0, 1, 1⟩, none, [1]⟩

/-- One successfully loaded image carrying the single detection above. -/
def exImg : FrameImage ℚ := ⟨"img0.png", true, [exDet]⟩

/-- A one-point map cloud in front of the camera. -/
def exPts : List (Vec3 ℚ) := [⟨0, 0, 1⟩]

/-- Two poses against a single image: a pose/image count mismatch. -/
def exPoses : List (Pose ℚ) := [exPose, exPose]

/-- The single-image list of the mismatched input. -/
def exImgs : List (FrameImage ℚ) := [exImg]

/-- A `chair` track with id 0 at the map point. -/
def exTrackA : ObjectTrack ℚ := ⟨0, "chair", ⟨0, 0, 1⟩, [1], 0, {0}, 1, 0, none, none⟩

/-- A second `chair` track, identical but created later (id 1). -/
def exTrackB : ObjectTrack ℚ := ⟨1, "chair", ⟨0, 0, 1⟩, [1], 0, {0}, 1, 0, none, none⟩

/-- A placeholder object record used by the query-layer witnesses. -/
def exRec : ObjectRecord ℚ :=
  ⟨"chair", ⟨0, 0, 1⟩, [0], 1, ⟨0, 0, 1⟩, ⟨0, 0, 1⟩, 1, 0, none, none,
   ⟨0, 0, 1⟩, ⟨0, 0, 0⟩, [⟨0, 0, 1⟩]⟩

/-- A one-object query model over ℚ. -/
def exModel : SpatialObjectModel ℚ := ⟨[("chair_0", exRec)]⟩

/-- An object record over ℝ centered at the origin. -/
def exRecO : ObjectRecord ℝ :=
  ⟨"table", ⟨0, 0, 0⟩, [0], 1, ⟨0, 0, 0⟩, ⟨0, 0, 0⟩, 1, 0, none, none,
   ⟨0, 0, 0⟩, ⟨0, 0, 0⟩, [⟨0, 0, 0⟩]⟩

/-- An object record over ℝ centered at `[3, 4, 0]`. -/
def exRecP : ObjectRecord ℝ :=
  ⟨"chair", ⟨3, 4, 0⟩, [1], 1, ⟨3, 4, 0⟩, ⟨3, 4, 0⟩, 1, 0, none, none,
   ⟨3, 4, 0⟩, ⟨0, 0, 0⟩, [⟨3, 4, 0⟩]⟩

/-- A two-object query model over ℝ whose centers are `[0,0,0]` and
`[3,4,0]`. -/
def exModelR : SpatialObjectModel ℝ := ⟨[("table_0", exRecO), ("chair_1", exRecP)]⟩



/-! ### Shared helper lemmas -/

section Helpers

variable {K : Type} [LinearOrderedField K]

/-- A key absent from the key column of an association list looks up to
`none`. -/
theorem lookup_eq_none_of_not_mem {β : Type} (k : String) :
    ∀ l : List (String × β), k ∉ l.map Prod.fst → l.lookup k = none := by
  intro l
  induction l with
  | nil => intro _; rfl
  | cons p tl ih =>
      intro h
      simp only [List.map_cons, List.mem_cons, not_or] at h
      have hne : (k == p.1) = false := by
        simp only [beq_eq_false_iff_ne, ne_eq]
        exact h.1
      simpa [List.lookup, hne] using ih h.2

/-- Over an association list with pairwise-distinct keys, a present pair is
exactly what lookup returns. -/
theorem lookup_eq_some_of_mem {β : Type} (k : String) (r : β) :
    ∀ l : List (String × β), (l.map Prod.fst).Nodup → (k, r) ∈ l →
      l.lookup k = some r := by
  intro l
  induction l with
  | nil => intro _ hm; cases hm
  | cons p tl ih =>
      intro hnd hm
      simp only [List.map_cons, List.nodup_cons] at hnd
      rcases List.mem_cons.mp hm with hh | ht
      · subst hh
        simp [List.lookup]
      · have hne : (k == p.1) = false := by
          simp only [beq_eq_false_iff_ne, ne_eq]
          intro he
          exact hnd.1 (he ▸ (List.mem_map_of_mem Prod.fst ht))
        simpa [List.lookup, hne] using ih hnd.2 ht

/-- The field-by-field copy of `SpatialObjectModel.__init__` rebuilds each
record unchanged. -/
theorem loadRecord_eq (o : ObjectRecord K) : loadRecord o = o := rfl

end Helpers

/-! ### C1: lookup on the finalized map -/

section C1

variable {K : Type} [LinearOrderedField K]

/-- **C1.** For every finalized object map and every key not present in it,
`get_object_info` returns `None` (the NotFound outcome) and never a default or
empty record; for every present key it returns that key's record. -/
theorem getObjectInfo_spec (model : SpatialObjectModel K) (key : String)
    (hkeys : (model.objects.map Prod.fst).Nodup) :
    (key ∉ model.objects.map Prod.fst → getObjectInfo model key = none) ∧
    (∀ r : ObjectRecord K, (key, r) ∈ model.objects →
      getObjectInfo model key = some r) := by
  constructor
  · intro habs
    exact lookup_eq_none_of_not_mem key model.objects habs
  · intro r hmem
    exact lookup_eq_some_of_mem key r model.objects hkeys hmem

/-- Witness for C1 at a concrete one-object model: the absent key `"sofa_7"`
yields `none`, the present key `"chair_0"` yields its record. -/
theorem getObjectInfo_spec_witness :
    getObjectInfo exModel "sofa_7" = none ∧
    getObjectInfo exModel "chair_0" = some exRec := by
  have h := getObjectInfo_spec exModel "sofa_7" (by simp [exModel])
  have h2 := getObjectInfo_spec exModel "chair_0" (by simp [exModel])
  exact ⟨h.1 (by simp [exModel]), h2.2 exRec (by simp [exModel])⟩

end C1

/-! ### C4: the matched-track EMA update -/

section C4

variable {K : Type} [LinearOrderedField K]

/-- **C4.** A matched update of a track with `num_obs = n` uses the weight
`α = 1/(n+1)` exactly once in each EMA; the centroid becomes
`(1−α)·centroid + α·detection_centroid`; the embedding becomes the
renormalization (division by `‖·‖ + 1e-8`, as in the source) of
`(1−α)·embedding + α·detection_embedding`; the point-index set becomes the
union with the detection's indices, so its size never decreases; `num_obs`
becomes `n+1`; `last_seen` becomes the current frame; and the first-detection
snapshot, the label and the id are unchanged. -/
theorem updateTrack_spec (sqrt : K → K) (tr : ObjectTrack K) (detFeat : List K)
    (center3d : Vec3 K) (objIndices : Finset ℕ) (frameIdx : ℕ) :
    (updateTrack sqrt tr detFeat center3d objIndices frameIdx).center3d =
      vadd (vsmul (1 - 1 / ((tr.numObs : K) + 1)) tr.center3d)
        (vsmul (1 / ((tr.numObs : K) + 1)) center3d) ∧
    (updateTrack sqrt tr detFeat center3d objIndices frameIdx).feat =
      renormalize sqrt
        (addV (smulV (1 - 1 / ((tr.numObs : K) + 1)) tr.feat)
          (smulV (1 / ((tr.numObs : K) + 1)) detFeat)) ∧
    (updateTrack sqrt tr detFeat center3d objIndices frameIdx).pointIndices =
      tr.pointIndices ∪ objIndices ∧
    tr.pointIndices.card ≤
      (updateTrack sqrt tr detFeat center3d objIndices frameIdx).pointIndices.card ∧
    (updateTrack sqrt tr detFeat center3d objIndices frameIdx).numObs =
      tr.numObs + 1 ∧
    (updateTrack sqrt tr detFeat center3d objIndices frameIdx).lastSeen =
      frameIdx ∧
    (updateTrack sqrt tr detFeat center3d objIndices frameIdx).firstFrameIdx =
      tr.firstFrameIdx ∧
    (updateTrack sqrt tr detFeat center3d objIndices frameIdx).firstBbox =
      tr.firstBbox ∧
    (updateTrack sqrt tr detFeat center3d objIndices frameIdx).firstFramePath =
      tr.firstFramePath ∧
    (updateTrack sqrt tr detFeat center3d objIndices frameIdx).label = tr.label ∧
    (updateTrack sqrt tr detFeat center3d objIndices frameIdx).id = tr.id := by
  refine ⟨rfl, rfl, rfl, ?_, rfl, rfl, rfl, rfl, rfl, rfl, rfl⟩
  exact Finset.card_le_card Finset.subset_union_left

end C4

/-! ### C9: persistence round trip into the query layer -/

section C9

variable {K : Type} [LinearOrderedField K]

/-- **C9.** Saving the finalized keyed record list and reloading it into the
query layer is a round trip: `SpatialObjectModel.__init__` copies each of the
thirteen record fields through `obj.get(...)`, reproducing the saved
association list exactly (the `np.save`/`np.load` pickling of the dict is
modelled as the identity on the keyed records), so every present key still
looks up to its exact original record. -/
theorem objectMap_roundTrip (m : List (String × ObjectRecord K)) :
    (SpatialObjectModel.ofMap m).objects = m ∧
    (∀ (key : String) (r : ObjectRecord K), (m.map Prod.fst).Nodup →
      (key, r) ∈ m → getObjectInfo (SpatialObjectModel.ofMap m) key = some r) := by
  have hobj : (SpatialObjectModel.ofMap m).objects = m := by
    show m.map (fun kv => (kv.1, loadRecord kv.2)) = m
    simp [loadRecord_eq]
  refine ⟨hobj, ?_⟩
  intro key r hnd hmem
  show (SpatialObjectModel.ofMap m).objects.lookup key = some r
  rw [hobj]
  exact lookup_eq_some_of_mem key r m hnd hmem

/-- Witness for C9: reloading the concrete one-record map reproduces it and
its record is found unchanged under its key. -/
theorem objectMap_roundTrip_witness :
    (SpatialObjectModel.ofMap [("chair_0", exRec)]).objects = [("chair_0", exRec)] ∧
    getObjectInfo (SpatialObjectModel.ofMap [("chair_0", exRec)]) "chair_0" =
      some exRec := by
  have h := objectMap_roundTrip [("chair_0", exRec)]
  exact ⟨h.1, h.2 "chair_0" exRec (by simp) (by simp)⟩

end C9

/-! ### C6: the label gate and label immutability -/

section C6

variable {K : Type} [LinearOrderedField K]

/-- Any track installed by the `match_to_tracks` fold has passed the label
gate: folding preserves the invariant that the current best candidate's
normalized label equals the detection's. -/
theorem matchFold_label_invariant (sqrt : K → K) (det : Detection K)
    (center3d : Vec3 K) (cosThresh distThresh : K) :
    ∀ (l : List (ObjectTrack K)) (acc : Option (ObjectTrack K) × K),
      (∀ t : ObjectTrack K, acc.1 = some t →
        t.label.trim.toLower = det.label.trim.toLower) →
      ∀ t : ObjectTrack K,
        (l.foldl (matchStep sqrt det center3d cosThresh distThresh) acc).1 =
          some t →
        t.label.trim.toLower = det.label.trim.toLower := by
  intro l
  induction l with
  | nil => intro acc hacc t ht; exact hacc t ht
  | cons hd tl ih =>
      intro acc hacc t ht
      rw [List.foldl_cons] at ht
      refine ih (matchStep sqrt det center3d cosThresh distThresh acc hd) ?_ t ht
      intro t' ht'
      unfold matchStep at ht'
      by_cases h1 : hd.label.trim.toLower ≠ det.label.trim.toLower
      · rw [if_pos h1] at ht'
        exact hacc t' ht'
      · rw [if_neg h1] at ht'
        push_neg at h1
        by_cases h2 :
            cosineSimilarity sqrt det.feat hd.feat < cosThresh
        · rw [if_pos h2] at ht'
          exact hacc t' ht'
        · rw [if_neg h2] at ht'
          by_cases h3 : dist3 sqrt center3d hd.center3d > distThresh
          · rw [if_pos h3] at ht'
            exact hacc t' ht'
          · rw [if_neg h3] at ht'
            by_cases h4 :
                cosineSimilarity sqrt det.feat hd.feat -
                  1 / 100 * dist3 sqrt center3d hd.center3d > acc.2
            · rw [if_pos h4] at ht'
              cases ht'
              exact h1
            · rw [if_neg h4] at ht'
              exact hacc t' ht'

/-- **C6.** For any thresholds, any similarity function and any geometry,
`match_to_tracks` only ever returns a track whose label equals the
detection's label after `strip().lower()` normalization — so detections with
different normalized labels are never merged into one track; moreover the
matched-track update leaves the track's label unchanged and a newly created
track carries the creating detection's label, so a track's label is immutable
after creation and every observation fused into it carried that label. -/
theorem labelGate_never_merges (sqrt : K → K) (det : Detection K)
    (center3d : Vec3 K) (tracks : List (ObjectTrack K)) (frameIdx : ℕ)
    (cosThresh distThresh : K) :
    (∀ tr : ObjectTrack K,
      matchToTracks sqrt det center3d tracks frameIdx cosThresh distThresh =
        some tr →
      tr.label.trim.toLower = det.label.trim.toLower) ∧
    (∀ (tr : ObjectTrack K) (detFeat : List K) (c : Vec3 K) (s : Finset ℕ)
        (f : ℕ), (updateTrack sqrt tr detFeat c s f).label = tr.label) ∧
    (∀ (i : ℕ) (lbl : String) (c : Vec3 K) (ft : List K) (f : ℕ) (s : Finset ℕ)
        (bb : Option (BBox K)) (pth : Option String),
      (mkObjectTrack (K := K) i lbl c ft f s bb pth).label = lbl) := by
  refine ⟨?_, fun _ _ _ _ _ => rfl, fun _ _ _ _ _ _ _ _ => rfl⟩
  intro tr htr
  exact matchFold_label_invariant sqrt det center3d cosThresh distThresh tracks
    (none, -1) (fun t ht => by cases ht) tr htr

/-- Witness for C6: on a concrete match that does return a track, the returned
track's normalized label equals the detection's. -/
theorem labelGate_never_merges_witness :
    matchToTracks (fun _ => (0 : ℚ)) exDet ⟨0, 0, 1⟩ [exTrackA] 0 0 5 =
      some exTrackA ∧
    exTrackA.label.trim.toLower = exDet.label.trim.toLower := by
  have hm : matchToTracks (fun _ => (0 : ℚ)) exDet ⟨0, 0, 1⟩ [exTrackA] 0 0 5 =
      some exTrackA := by
    norm_num [matchToTracks, matchStep, exDet, exTrackA, cosineSimilarity, dotV,
      normV, eps8, dist3, vsub, dot3]
  exact ⟨hm,
    (labelGate_never_merges (fun _ => (0 : ℚ)) exDet ⟨0, 0, 1⟩ [exTrackA] 0 0 5).1
      exTrackA hm⟩

end C6

/-! ### C7: projection validity and the depth clamp -/

section C7

variable {K : Type} [LinearOrderedField K]

/-- **C7.** For every pose, intrinsics and 3-d point: combined with the
call-site depth cap (`valid & (depth < MAX_DEPTH)`), the point is kept if and
only if its camera-frame depth `z` satisfies `0.1 < z < 30` and the projected
pixel lies in `[0, IMG_W) × [0, IMG_H)`; when the depth is above the `0.1`
minimum the returned depth is the true `z` and the pixel is the true
projection; and the division denominator is clamped to `1e-6` whenever
`|z| < 1e-6`, every such point being marked invalid regardless of its
pixel. -/
theorem projectPoint_valid_iff (cam : Intrinsics K) (R : Mat3 K) (t p : Vec3 K) :
    (((projectPoint cam R t p).valid = true ∧
        (projectPoint cam R t p).depth < maxDepthC K) ↔
      (minDepth K < (vadd (matApply R p) t).z ∧
        (vadd (matApply R p) t).z < maxDepthC K ∧
        0 ≤ (projectPoint cam R t p).u ∧ (projectPoint cam R t p).u < cam.imgW ∧
        0 ≤ (projectPoint cam R t p).v ∧ (projectPoint cam R t p).v < cam.imgH)) ∧
    (minDepth K < (vadd (matApply R p) t).z →
      (projectPoint cam R t p).depth = (vadd (matApply R p) t).z ∧
      (projectPoint cam R t p).u =
        cam.fx * ((vadd (matApply R p) t).x / (vadd (matApply R p) t).z) +
          cam.cx ∧
      (projectPoint cam R t p).v =
        cam.fy * ((vadd (matApply R p) t).y / (vadd (matApply R p) t).z) +
          cam.cy) ∧
    (|(vadd (matApply R p) t).z| < epsDepth K →
      (projectPoint cam R t p).depth = epsDepth K ∧
      (projectPoint cam R t p).valid = false) := by
  have heps : epsDepth K < minDepth K := by norm_num [epsDepth, minDepth]
  have hdepth : (projectPoint cam R t p).depth =
      (if |(vadd (matApply R p) t).z| < epsDepth K then epsDepth K
       else (vadd (matApply R p) t).z) := rfl
  have hu : (projectPoint cam R t p).u =
      cam.fx * ((vadd (matApply R p) t).x /
        (if |(vadd (matApply R p) t).z| < epsDepth K then epsDepth K
         else (vadd (matApply R p) t).z)) + cam.cx := rfl
  have hv : (projectPoint cam R t p).v =
      cam.fy * ((vadd (matApply R p) t).y /
        (if |(vadd (matApply R p) t).z| < epsDepth K then epsDepth K
         else (vadd (matApply R p) t).z)) + cam.cy := rfl
  have hvalid : (projectPoint cam R t p).valid =
      (decide ((if |(vadd (matApply R p) t).z| < epsDepth K then epsDepth K
          else (vadd (matApply R p) t).z) > minDepth K) &&
       (decide ((projectPoint cam R t p).u ≥ 0) &&
        decide ((projectPoint cam R t p).u < cam.imgW) &&
        decide ((projectPoint cam R t p).v ≥ 0) &&
        decide ((projectPoint cam R t p).v < cam.imgH))) := rfl
  by_cases hc : |(vadd (matApply R p) t).z| < epsDepth K
  · have hzsafe : (if |(vadd (matApply R p) t).z| < epsDepth K then epsDepth K
        else (vadd (matApply R p) t).z) = epsDepth K := if_pos hc
    have hnz : ¬ minDepth K < (vadd (matApply R p) t).z := by
      push_neg
      exact le_of_lt (lt_trans (lt_of_le_of_lt (le_abs_self _) hc) heps)
    have hvfalse : (projectPoint cam R t p).valid = false := by
      rw [hvalid, hzsafe]
      simp [not_lt.mpr (le_of_lt heps)]
    refine ⟨?_, fun hgt => absurd hgt hnz, fun _ => ⟨by rw [hdepth, hzsafe], hvfalse⟩⟩
    constructor
    · rintro ⟨hvv, _⟩
      rw [hvfalse] at hvv
      cases hvv
    · rintro ⟨hgt, _⟩
      exact absurd hgt hnz
  · have hzsafe : (if |(vadd (matApply R p) t).z| < epsDepth K then epsDepth K
        else (vadd (matApply R p) t).z) = (vadd (matApply R p) t).z := if_neg hc
    have hdz : (projectPoint cam R t p).depth = (vadd (matApply R p) t).z := by
      rw [hdepth, hzsafe]
    refine ⟨?_, fun _ => ⟨hdz, by rw [hu, hzsafe], by rw [hv, hzsafe]⟩,
      fun habs => absurd habs hc⟩
    have hva : (projectPoint cam R t p).valid =
        (decide ((vadd (matApply R p) t).z > minDepth K) &&
         (decide ((projectPoint cam R t p).u ≥ 0) &&
          decide ((projectPoint cam R t p).u < cam.imgW) &&
          decide ((projectPoint cam R t p).v ≥ 0) &&
          decide ((projectPoint cam R t p).v < cam.imgH))) := by
      rw [hvalid, hzsafe]
    rw [hva, hdz]
    simp only [Bool.and_eq_true, decide_eq_true_eq, ge_iff_le, gt_iff_lt]
    tauto

/-- Witness for C7: the world origin projects with exactly zero camera depth;
the denominator is clamped to `1e-6` and the point is invalid. -/
theorem projectPoint_valid_iff_witness :
    (projectPoint exCam exRot ⟨0, 0, 0⟩ ⟨0, 0, 0⟩).depth = epsDepth ℚ ∧
    (projectPoint exCam exRot ⟨0, 0, 0⟩ ⟨0, 0, 0⟩).valid = false := by
  apply (projectPoint_valid_iff exCam exRot ⟨0, 0, 0⟩ ⟨0, 0, 0⟩).2.2
  norm_num [vadd, matApply, dot3, exRot, epsDepth]

end C7

/-! ### C2: behaviour on a pose/image count mismatch -/

section C2

variable {K : Type} [LinearOrderedField K]

/-- **C2 (amended).** A pose/image count mismatch raises no error:
`build_vlm_object_map` silently truncates to
`N = min(len(T_all), len(img_files), MAX_FRAMES)` and behaves exactly as if
both input streams had been cut to `N` frames; tracks are associated and
created normally on those frames. -/
theorem buildVlmObjectMap_truncates_to_min [FloorRing K] (sqrt : K → K)
    (cam : Intrinsics K) (poses : List (Pose K)) (imgs : List (FrameImage K))
    (mapPts : List (Vec3 K)) :
    buildVlmObjectMap sqrt cam poses imgs mapPts =
      buildVlmObjectMap sqrt cam
        (poses.take (min (min poses.length imgs.length) maxFramesC))
        (imgs.take (min (min poses.length imgs.length) maxFramesC)) mapPts := by
  have hlen : (poses.zip imgs).length = min poses.length imgs.length :=
    List.length_zip poses imgs
  have hzip : ((poses.take (min (min poses.length imgs.length) maxFramesC)).zip
      (imgs.take (min (min poses.length imgs.length) maxFramesC))).take
        maxFramesC = (poses.zip imgs).take maxFramesC := by
    rw [List.zip_eq_zipWith, ← List.take_zipWith, ← List.zip_eq_zipWith,
      List.take_take]
    rcases le_total (min poses.length imgs.length) maxFramesC with hle | hge
    · have h2 : min maxFramesC (min (min poses.length imgs.length) maxFramesC) =
          min poses.length imgs.length := by omega
      rw [h2, ← hlen, List.take_length]
      exact (List.take_of_length_le (by omega)).symm
    · have h2 : min maxFramesC (min (min poses.length imgs.length) maxFramesC) =
          maxFramesC := by omega
      rw [h2]
  unfold buildVlmObjectMap runFrames
  rw [hzip]

end C2

/-- **C2 (counterexample).** On a concrete input whose pose count (2) differs
from its image count (1), `build_vlm_object_map` does not fail — it cannot:
its result type carries no error case, mirroring the source, which performs no
count validation — and it associates the detection and creates a track, whose
record appears in the final map: the claimed fatal `InputError` before any
track processing does not exist in the code. -/
theorem buildVlmObjectMap_mismatch_creates_track :
    exPoses.length ≠ exImgs.length ∧
    (buildVlmObjectMap (fun q => q) exCam exPoses exImgs exPts).length = 1 := by
  constructor
  · simp [exPoses, exImgs]
  · norm_num [buildVlmObjectMap, runFrames, processFrame, processDetection,
      validProjections, projectPoints, projectPoint, maskPointsInDetection,
      inBox, matchToTracks, matchStep, buildObjectMapFromTracks, finalizeTrack,
      mkObjectTrack, vmean, vsum, vadd, vsmul, matApply, dot3, ptAt, exCam,
      exPose, exRot, exDet, exImg, exPts, exPoses, exImgs, epsDepth, minDepth,
      maxDepthC, maxFramesC, List.enum, List.enumFrom, List.filter,
      List.filterMap, Finset.sort_singleton]

/-! ### C3 and C10: the greedy scored selection of `match_to_tracks` -/

section MatchArgmax

variable {K : Type} [LinearOrderedField K]

/-- The loop body of `match_to_tracks` is exactly the gated
strict-improvement argmax step for the three-gate predicate and the combined
score `sim − 0.01·dist`. -/
theorem matchStep_eq_selStep (sqrt : K → K) (det : Detection K)
    (center3d : Vec3 K) (cosThresh distThresh : K)
    (acc : Option (ObjectTrack K) × K) (tr : ObjectTrack K) :
    matchStep sqrt det center3d cosThresh distThresh acc tr =
      selStep (passesGates sqrt det center3d cosThresh distThresh)
        (trackScore sqrt det center3d) acc tr := by
  unfold matchStep selStep passesGates trackScore
  by_cases h1 : tr.label.trim.toLower = det.label.trim.toLower <;>
    by_cases h2 : cosineSimilarity sqrt det.feat tr.feat < cosThresh <;>
      by_cases h3 : dist3 sqrt center3d tr.center3d > distThresh <;>
        simp [h1, h2, h3, not_le.mpr, le_of_not_lt, gt_iff_lt]

/-- The whole `match_to_tracks` fold coincides with the abstract gated argmax
fold. -/
theorem matchFold_eq_selFold (sqrt : K → K) (det : Detection K)
    (center3d : Vec3 K) (cosThresh distThresh : K) :
    ∀ (l : List (ObjectTrack K)) (acc : Option (ObjectTrack K) × K),
      l.foldl (matchStep sqrt det center3d cosThresh distThresh) acc =
        l.foldl (selStep (passesGates sqrt det center3d cosThresh distThresh)
          (trackScore sqrt det center3d)) acc := by
  intro l
  induction l with
  | nil => intro _; rfl
  | cons hd tl ih =>
      intro acc
      rw [List.foldl_cons, List.foldl_cons, matchStep_eq_selStep]
      exact ih _

/-- If no surviving element strictly beats the running best score, the gated
argmax fold returns its accumulator unchanged. -/
theorem selFold_no_improve {α : Type} (pass : α → Bool) (score : α → K) :
    ∀ (l : List α) (acc : Option α × K),
      (∀ a ∈ l, pass a = true → score a ≤ acc.2) →
      l.foldl (selStep pass score) acc = acc := by
  intro l
  induction l with
  | nil => intro _ _; rfl
  | cons hd tl ih =>
      intro acc h
      rw [List.foldl_cons]
      have hstep : selStep pass score acc hd = acc := by
        unfold selStep
        by_cases hp : pass hd = true
        · rw [if_pos hp, if_neg (not_lt.mpr (h hd (List.mem_cons_self _ _) hp))]
        · rw [if_neg hp]
      rw [hstep]
      exact ih acc (fun a ha hp => h a (List.mem_cons_of_mem _ ha) hp)

/-- Whenever some surviving element strictly beats the initial score, the
gated argmax fold returns a surviving element achieving the maximal surviving
score. -/
theorem selFold_mem_of_exists {α : Type} (pass : α → Bool) (score : α → K) :
    ∀ (l : List α) (b0 : Option α) (s0 : K),
      (∃ t ∈ l, pass t = true ∧ s0 < score t) →
      ∃ tr ∈ l, pass tr = true ∧
        l.foldl (selStep pass score) (b0, s0) = (some tr, score tr) ∧
        (∀ s ∈ l, pass s = true → score s ≤ score tr) := by
  intro l
  induction l with
  | nil => rintro b0 s0 ⟨t, ht, _⟩; cases ht
  | cons hd tl ih =>
      intro b0 s0 hex
      rw [List.foldl_cons]
      by_cases hp : pass hd = true
      · by_cases himp : s0 < score hd
        · have hstep : selStep pass score (b0, s0) hd = (some hd, score hd) := by
            unfold selStep
            rw [if_pos hp, if_pos himp]
          rw [hstep]
          by_cases htail : ∃ t ∈ tl, pass t = true ∧ score hd < score t
          · obtain ⟨tr, htr, hptr, hfold, hmax⟩ := ih (some hd) (score hd) htail
            obtain ⟨t, ht, hpt, hlt⟩ := htail
            refine ⟨tr, List.mem_cons_of_mem _ htr, hptr, hfold, ?_⟩
            intro s hs hps
            rcases List.mem_cons.mp hs with rfl | hs2
            · exact le_trans (le_of_lt hlt) (hmax t ht hpt)
            · exact hmax s hs2 hps
          · push_neg at htail
            have hkeep : tl.foldl (selStep pass score) (some hd, score hd) =
                (some hd, score hd) :=
              selFold_no_improve pass score tl _
                (fun a ha hpa => htail a ha hpa)
            refine ⟨hd, List.mem_cons_self _ _, hp, hkeep, ?_⟩
            intro s hs hps
            rcases List.mem_cons.mp hs with rfl | hs2
            · exact le_refl _
            · exact htail s hs2 hps
        · have hstep : selStep pass score (b0, s0) hd = (b0, s0) := by
            unfold selStep
            rw [if_pos hp, if_neg himp]
          rw [hstep]
          obtain ⟨t, ht, hpt, hst⟩ := hex
          have htex : ∃ t ∈ tl, pass t = true ∧ s0 < score t := by
            rcases List.mem_cons.mp ht with rfl | ht2
            · exact absurd hst himp
            · exact ⟨t, ht2, hpt, hst⟩
          obtain ⟨tr, htr, hptr, hfold, hmax⟩ := ih b0 s0 htex
          obtain ⟨t2, ht2, hpt2, hst2⟩ := htex
          refine ⟨tr, List.mem_cons_of_mem _ htr, hptr, hfold, ?_⟩
          intro s hs hps
          rcases List.mem_cons.mp hs with rfl | hs2
          · exact le_trans (not_lt.mp himp)
              (le_of_lt (lt_of_lt_of_le hst2 (hmax t2 ht2 hpt2)))
          · exact hmax s hs2 hps
      · have hstep : selStep pass score (b0, s0) hd = (b0, s0) := by
          unfold selStep
          rw [if_neg hp]
        rw [hstep]
        obtain ⟨t, ht, hpt, hst⟩ := hex
        have htex : ∃ t ∈ tl, pass t = true ∧ s0 < score t := by
          rcases List.mem_cons.mp ht with rfl | ht2
          · exact absurd hpt hp
          · exact ⟨t, ht2, hpt, hst⟩
        obtain ⟨tr, htr, hptr, hfold, hmax⟩ := ih b0 s0 htex
        refine ⟨tr, List.mem_cons_of_mem _ htr, hptr, hfold, ?_⟩
        intro s hs hps
        rcases List.mem_cons.mp hs with rfl | hs2
        · exact absurd hps hp
        · exact hmax s hs2 hps

/-- With strictly increasing keys along the list, the gated argmax fold
additionally breaks score ties towards the smallest key: it returns the first
surviving maximizer. -/
theorem selFold_first_max {α : Type} (pass : α → Bool) (score : α → K)
    (key : α → Nat) :
    ∀ (l : List α) (b0 : Option α) (s0 : K),
      l.Pairwise (fun a b => key a < key b) →
      (∃ t ∈ l, pass t = true ∧ s0 < score t) →
      ∃ tr ∈ l, pass tr = true ∧
        l.foldl (selStep pass score) (b0, s0) = (some tr, score tr) ∧
        (∀ s ∈ l, pass s = true → score s ≤ score tr) ∧
        (∀ s ∈ l, pass s = true → score s = score tr → key tr ≤ key s) := by
  intro l
  induction l with
  | nil => rintro b0 s0 _ ⟨t, ht, _⟩; cases ht
  | cons hd tl ih =>
      intro b0 s0 hpw hex
      obtain ⟨hhd, hpw2⟩ := List.pairwise_cons.mp hpw
      rw [List.foldl_cons]
      by_cases hp : pass hd = true
      · by_cases himp : s0 < score hd
        · have hstep : selStep pass score (b0, s0) hd = (some hd, score hd) := by
            unfold selStep
            rw [if_pos hp, if_pos himp]
          rw [hstep]
          by_cases htail : ∃ t ∈ tl, pass t = true ∧ score hd < score t
          · obtain ⟨tr, htr, hptr, hfold, hmax, htie⟩ :=
              ih (some hd) (score hd) hpw2 htail
            obtain ⟨t, ht, hpt, hlt⟩ := htail
            have hhdlt : score hd < score tr := lt_of_lt_of_le hlt (hmax t ht hpt)
            refine ⟨tr, List.mem_cons_of_mem _ htr, hptr, hfold, ?_, ?_⟩
            · intro s hs hps
              rcases List.mem_cons.mp hs with rfl | hs2
              · exact le_of_lt hhdlt
              · exact hmax s hs2 hps
            · intro s hs hps heq
              rcases List.mem_cons.mp hs with rfl | hs2
              · exact absurd heq (ne_of_lt hhdlt)
              · exact htie s hs2 hps heq
          · push_neg at htail
            have hkeep : tl.foldl (selStep pass score) (some hd, score hd) =
                (some hd, score hd) :=
              selFold_no_improve pass score tl _
                (fun a ha hpa => htail a ha hpa)
            refine ⟨hd, List.mem_cons_self _ _, hp, hkeep, ?_, ?_⟩
            · intro s hs hps
              rcases List.mem_cons.mp hs with rfl | hs2
              · exact le_refl _
              · exact htail s hs2 hps
            · intro s hs hps _
              rcases List.mem_cons.mp hs with rfl | hs2
              · exact le_refl _
              · exact le_of_lt (hhd s hs2)
        · have hstep : selStep pass score (b0, s0) hd = (b0, s0) := by
            unfold selStep
            rw [if_pos hp, if_neg himp]
          rw [hstep]
          obtain ⟨t, ht, hpt, hst⟩ := hex
          have htex : ∃ t ∈ tl, pass t = true ∧ s0 < score t := by
            rcases List.mem_cons.mp ht with rfl | ht2
            · exact absurd hst himp
            · exact ⟨t, ht2, hpt, hst⟩
          obtain ⟨tr, htr, hptr, hfold, hmax, htie⟩ := ih b0 s0 hpw2 htex
          obtain ⟨t2, ht2, hpt2, hst2⟩ := htex
          have hhdle : score hd < score tr :=
            lt_of_le_of_lt (not_lt.mp himp)
              (lt_of_lt_of_le hst2 (hmax t2 ht2 hpt2))
          refine ⟨tr, List.mem_cons_of_mem _ htr, hptr, hfold, ?_, ?_⟩
          · intro s hs hps
            rcases List.mem_cons.mp hs with rfl | hs2
            · exact le_of_lt hhdle
            · exact hmax s hs2 hps
          · intro s hs hps heq
            rcases List.mem_cons.mp hs with rfl | hs2
            · exact absurd heq (ne_of_lt hhdle)
            · exact htie s hs2 hps heq
      · have hstep : selStep pass score (b0, s0) hd = (b0, s0) := by
          unfold selStep
          rw [if_neg hp]
        rw [hstep]
        obtain ⟨t, ht, hpt, hst⟩ := hex
        have htex : ∃ t ∈ tl, pass t = true ∧ s0 < score t := by
          rcases List.mem_cons.mp ht with rfl | ht2
          · exact absurd hpt hp
          · exact ⟨t, ht2, hpt, hst⟩
        obtain ⟨tr, htr, hptr, hfold, hmax, htie⟩ := ih b0 s0 hpw2 htex
        refine ⟨tr, List.mem_cons_of_mem _ htr, hptr, hfold, ?_, ?_⟩
        · intro s hs hps
          rcases List.mem_cons.mp hs with rfl | hs2
          · exact absurd hps hp
          · exact hmax s hs2 hps
        · intro s hs hps heq
          rcases List.mem_cons.mp hs with rfl | hs2
          · exact absurd hps hp
          · exact htie s hs2 hps heq

/-- At the default thresholds (`cos_thresh = 0.75`, `dist_thresh = 5.0`),
every candidate surviving all three gates scores at least
`0.75 − 0.01·5 = 0.70`. -/
theorem score_lower_bound (sqrt : K → K) (det : Detection K) (center3d : Vec3 K)
    (tr : ObjectTrack K)
    (hp : passesGates sqrt det center3d (3 / 4) 5 tr = true) :
    (7 / 10 : K) ≤ trackScore sqrt det center3d tr := by
  unfold passesGates at hp
  simp only [Bool.and_eq_true, decide_eq_true_eq, beq_iff_eq] at hp
  obtain ⟨⟨_, hsim⟩, hdist⟩ := hp
  unfold trackScore
  nlinarith [hsim, hdist]

end MatchArgmax

section C3C10

variable {K : Type} [LinearOrderedField K]

/-- **C3.** At the default thresholds, each candidate surviving the label,
appearance and geometry gates is scored `score = sim − k·dist` with
`k = 0.01` (the definition of `trackScore`, which is the score computed in
the loop by `matchStep_eq_selStep`), and `match_to_tracks` returns the
surviving candidate with maximal score; when two surviving candidates tie,
the earliest-created (smallest-id) one is returned — the track list is kept
in creation order, so its ids increase along the list. -/
theorem matchToTracks_selects_max_score (sqrt : K → K) (det : Detection K)
    (center3d : Vec3 K) (tracks : List (ObjectTrack K)) (frameIdx : ℕ)
    (hids : tracks.Pairwise (fun a b => a.id < b.id))
    (hne : gateSurvivors sqrt det center3d (3 / 4) 5 tracks ≠ []) :
    ∃ tr : ObjectTrack K,
      matchToTracks sqrt det center3d tracks frameIdx (3 / 4) 5 = some tr ∧
      tr ∈ gateSurvivors sqrt det center3d (3 / 4) 5 tracks ∧
      trackScore sqrt det center3d tr =
        cosineSimilarity sqrt det.feat tr.feat -
          1 / 100 * dist3 sqrt center3d tr.center3d ∧
      (∀ s ∈ gateSurvivors sqrt det center3d (3 / 4) 5 tracks,
        trackScore sqrt det center3d s ≤ trackScore sqrt det center3d tr) ∧
      (∀ s ∈ gateSurvivors sqrt det center3d (3 / 4) 5 tracks,
        trackScore sqrt det center3d s = trackScore sqrt det center3d tr →
          tr.id ≤ s.id) := by
  obtain ⟨t, ht⟩ := List.exists_mem_of_ne_nil _ hne
  have htf := List.mem_filter.mp ht
  have hex : ∃ t ∈ tracks,
      passesGates sqrt det center3d (3 / 4) 5 t = true ∧
      (-1 : K) < trackScore sqrt det center3d t := by
    refine ⟨t, htf.1, htf.2, ?_⟩
    have hb := score_lower_bound sqrt det center3d t htf.2
    have : (-1 : K) < 7 / 10 := by norm_num
    linarith
  obtain ⟨tr, htr, hptr, hfold, hmax, htie⟩ :=
    selFold_first_max (passesGates sqrt det center3d (3 / 4) 5)
      (trackScore sqrt det center3d) (fun a => a.id) tracks none (-1) hids hex
  refine ⟨tr, ?_, List.mem_filter.mpr ⟨htr, hptr⟩, rfl, ?_, ?_⟩
  · unfold matchToTracks
    rw [matchFold_eq_selFold, hfold]
  · intro s hs
    have hsf := List.mem_filter.mp hs
    exact hmax s hsf.1 hsf.2
  · intro s hs
    have hsf := List.mem_filter.mp hs
    exact htie s hsf.1 hsf.2

/-- Witness for C3: two identical surviving `chair` candidates (ids 0 and 1)
tie on score, and the earliest-created one (id 0) is returned. -/
theorem matchToTracks_selects_max_score_witness :
    ∃ tr : ObjectTrack ℚ,
      matchToTracks (fun _ => (0 : ℚ)) exDet ⟨0, 0, 1⟩ [exTrackA, exTrackB] 0
        (3 / 4) 5 = some tr ∧
      tr ∈ gateSurvivors (fun _ => (0 : ℚ)) exDet ⟨0, 0, 1⟩ (3 / 4) 5
        [exTrackA, exTrackB] ∧
      trackScore (fun _ => (0 : ℚ)) exDet ⟨0, 0, 1⟩ tr =
        cosineSimilarity (fun _ => (0 : ℚ)) exDet.feat tr.feat -
          1 / 100 * dist3 (fun _ => (0 : ℚ)) ⟨0, 0, 1⟩ tr.center3d ∧
      (∀ s ∈ gateSurvivors (fun _ => (0 : ℚ)) exDet ⟨0, 0, 1⟩ (3 / 4) 5
          [exTrackA, exTrackB],
        trackScore (fun _ => (0 : ℚ)) exDet ⟨0, 0, 1⟩ s ≤
          trackScore (fun _ => (0 : ℚ)) exDet ⟨0, 0, 1⟩ tr) ∧
      (∀ s ∈ gateSurvivors (fun _ => (0 : ℚ)) exDet ⟨0, 0, 1⟩ (3 / 4) 5
          [exTrackA, exTrackB],
        trackScore (fun _ => (0 : ℚ)) exDet ⟨0, 0, 1⟩ s =
          trackScore (fun _ => (0 : ℚ)) exDet ⟨0, 0, 1⟩ tr → tr.id ≤ s.id) := by
  apply matchToTracks_selects_max_score (fun _ => (0 : ℚ)) exDet ⟨0, 0, 1⟩
    [exTrackA, exTrackB] 0
  · simp [exTrackA, exTrackB]
  · have hpa : passesGates (fun _ => (0 : ℚ)) exDet ⟨0, 0, 1⟩ (3 / 4) 5
        exTrackA = true := by
      norm_num [passesGates, exDet, exTrackA, cosineSimilarity, dotV, normV,
        eps8, dist3, vsub, dot3]
    simp [gateSurvivors, List.filter, hpa]

/-- **C10.** At the default thresholds, `match_to_tracks` returns `None` if
and only if no track passes all three gates: every surviving candidate scores
at least `0.75 − 0.01·5 = 0.70`, which strictly exceeds the `−1.0`
initialization of the best score, so the initial value can never mask a
survivor. -/
theorem matchToTracks_none_iff_no_survivor (sqrt : K → K) (det : Detection K)
    (center3d : Vec3 K) (tracks : List (ObjectTrack K)) (frameIdx : ℕ) :
    (matchToTracks sqrt det center3d tracks frameIdx (3 / 4) 5 = none ↔
      gateSurvivors sqrt det center3d (3 / 4) 5 tracks = []) ∧
    (∀ tr ∈ gateSurvivors sqrt det center3d (3 / 4) 5 tracks,
      (7 / 10 : K) ≤ trackScore sqrt det center3d tr ∧
      (-1 : K) < trackScore sqrt det center3d tr) := by
  constructor
  · constructor
    · intro hnone
      by_contra hne
      obtain ⟨t, ht⟩ := List.exists_mem_of_ne_nil _ hne
      have htf := List.mem_filter.mp ht
      have hex : ∃ t ∈ tracks,
          passesGates sqrt det center3d (3 / 4) 5 t = true ∧
          (-1 : K) < trackScore sqrt det center3d t := by
        refine ⟨t, htf.1, htf.2, ?_⟩
        have hb := score_lower_bound sqrt det center3d t htf.2
        have : (-1 : K) < 7 / 10 := by norm_num
        linarith
      obtain ⟨tr, _, _, hfold, _⟩ :=
        selFold_mem_of_exists (passesGates sqrt det center3d (3 / 4) 5)
          (trackScore sqrt det center3d) tracks none (-1) hex
      unfold matchToTracks at hnone
      rw [matchFold_eq_selFold, hfold] at hnone
      cases hnone
    · intro hnil
      have hall : ∀ a ∈ tracks,
          ¬ passesGates sqrt det center3d (3 / 4) 5 a = true := by
        intro a ha hpa
        have : a ∈ gateSurvivors sqrt det center3d (3 / 4) 5 tracks :=
          List.mem_filter.mpr ⟨ha, hpa⟩
        rw [hnil] at this
        cases this
      unfold matchToTracks
      rw [matchFold_eq_selFold,
        selFold_no_improve _ _ tracks (none, -1)
          (fun a ha hpa => absurd hpa (hall a ha))]
  · intro tr htr
    have hb := score_lower_bound sqrt det center3d tr (List.mem_filter.mp htr).2
    refine ⟨hb, lt_of_lt_of_le (by norm_num) hb⟩

/-- Witness for C10: with no tracks at all there is no survivor, and
`match_to_tracks` indeed returns `None`. -/
theorem matchToTracks_none_iff_no_survivor_witness :
    matchToTracks (fun _ => (0 : ℚ)) exDet ⟨0, 0, 1⟩ [] 0 (3 / 4) 5 = none :=
  (matchToTracks_none_iff_no_survivor (fun _ => (0 : ℚ)) exDet ⟨0, 0, 1⟩ [] 0).1.mpr
    rfl

end C3C10

/-! ### C8: pairwise distance in the query layer -/

section C8

/-- **C8.** For every finalized model and pair of keys,
`distance_between_objects` returns the Euclidean distance
`√(Δx² + Δy² + Δz²)` between the two records' centers when both keys are
present, and fails with the NotFound `ValueError` when either key is absent;
the model is never mutated (the operation is a pure function of the model). -/
theorem distanceBetweenObjects_spec (model : SpatialObjectModel ℝ)
    (k1 k2 : String) :
    (∀ o1 o2 : ObjectRecord ℝ, getObjectInfo model k1 = some o1 →
      getObjectInfo model k2 = some o2 →
      distanceBetweenObjects Real.sqrt model k1 k2 =
        Except.ok (Real.sqrt ((o1.center.x - o2.center.x) ^ 2 +
          (o1.center.y - o2.center.y) ^ 2 + (o1.center.z - o2.center.z) ^ 2))) ∧
    ((getObjectInfo model k1 = none ∨ getObjectInfo model k2 = none) →
      ∃ msg : String, distanceBetweenObjects Real.sqrt model k1 k2 =
        Except.error msg) := by
  constructor
  · intro o1 o2 h1 h2
    have hd : dot3 (vsub o1.center o2.center) (vsub o1.center o2.center) =
        (o1.center.x - o2.center.x) ^ 2 + (o1.center.y - o2.center.y) ^ 2 +
          (o1.center.z - o2.center.z) ^ 2 := by
      unfold dot3 vsub
      ring
    unfold distanceBetweenObjects
    rw [h1, h2]
    exact congrArg (fun q => Except.ok (Real.sqrt q)) hd
  · intro habs
    unfold distanceBetweenObjects
    rcases habs with h | h
    · rw [h]
      exact ⟨_, rfl⟩
    · rw [h]
      cases getObjectInfo model k1 with
      | none => exact ⟨_, rfl⟩
      | some o => exact ⟨_, rfl⟩

/-- Witness for C8: between the centers `[0,0,0]` and `[3,4,0]` the distance
is exactly `5.0`, and a missing key fails with the NotFound error. -/
theorem distanceBetweenObjects_spec_witness :
    distanceBetweenObjects Real.sqrt exModelR "table_0" "chair_1" =
      Except.ok 5 ∧
    (∃ msg : String, distanceBetweenObjects Real.sqrt exModelR "table_0"
      "ghost_9" = Except.error msg) := by
  have h1 : getObjectInfo exModelR "table_0" = some exRecO := rfl
  have h2 : getObjectInfo exModelR "chair_1" = some exRecP := rfl
  constructor
  · rw [(distanceBetweenObjects_spec exModelR "table_0" "chair_1").1 exRecO
      exRecP h1 h2]
    have hc : ((exRecO.center.x - exRecP.center.x) ^ 2 +
        (exRecO.center.y - exRecP.center.y) ^ 2 +
        (exRecO.center.z - exRecP.center.z) ^ 2 : ℝ) = 5 ^ 2 := by
      norm_num [exRecO, exRecP]
    rw [hc, Real.sqrt_sq (by norm_num)]
  · apply (distanceBetweenObjects_spec exModelR "table_0" "ghost_9").2
    right
    rfl

end C8

/-! ### C5: finalization into the keyed object map -/

section Digits

/-- Decimal digit characters produced by `Nat.digitChar` on a `% 10` residue
are never the underscore used as the key separator. -/
theorem digitChar_mod_ne_underscore (n : ℕ) : Nat.digitChar (n % 10) ≠ '_' := by
  have h : n % 10 < 10 := Nat.mod_lt _ (by norm_num)
  set k := n % 10 with hk
  interval_cases k <;> decide

/-- `digitVal` inverts `Nat.digitChar` on decimal digits. -/
theorem digitVal_digitChar (n : ℕ) (h : n < 10) :
    digitVal (Nat.digitChar n) = n := by
  interval_cases n <;> decide

/-- The digit string produced by `Nat.toDigitsCore` denotes the encoded
number (with the accumulator appended as lower-significance digits). -/
theorem toDigitsCore_digitsVal :
    ∀ (fuel n : ℕ) (ds : List Char), n < fuel →
      digitsVal (Nat.toDigitsCore 10 fuel n ds) =
        n * 10 ^ ds.length + digitsVal ds := by
  intro fuel
  induction fuel with
  | zero => intro n ds h; exact absurd h (Nat.not_lt_zero n)
  | succ f ih =>
      intro n ds h
      simp only [Nat.toDigitsCore]
      by_cases h0 : n / 10 = 0
      · rw [if_pos h0]
        simp only [digitsVal]
        rw [digitVal_digitChar (n % 10) (Nat.mod_lt _ (by norm_num))]
        have hlt10 : n < 10 := by
          by_contra hge
          push_neg at hge
          omega
        rw [Nat.mod_eq_of_lt hlt10]
      · rw [if_neg h0]
        have h10 : 10 ≤ n := by
          by_contra hlt10
          push_neg at hlt10
          exact h0 (Nat.div_eq_of_lt hlt10)
        have hlt : n / 10 < f := by
          have hself : n / 10 < n := Nat.div_lt_self (by omega) (by norm_num)
          omega
        rw [ih (n / 10) (Nat.digitChar (n % 10) :: ds) hlt]
        simp only [digitsVal, List.length_cons]
        rw [digitVal_digitChar (n % 10) (Nat.mod_lt _ (by norm_num))]
        have hmod : 10 * (n / 10) + n % 10 = n := Nat.div_add_mod n 10
        calc n / 10 * 10 ^ (ds.length + 1) +
              (n % 10 * 10 ^ ds.length + digitsVal ds)
            = (10 * (n / 10) + n % 10) * 10 ^ ds.length + digitsVal ds := by ring
          _ = n * 10 ^ ds.length + digitsVal ds := by rw [hmod]

/-- The decimal digit string of `n` denotes `n`. -/
theorem digitsVal_toDigits (n : ℕ) : digitsVal (Nat.toDigits 10 n) = n := by
  unfold Nat.toDigits
  rw [toDigitsCore_digitsVal (n + 1) n [] (Nat.lt_succ_self n)]
  simp [digitsVal]

/-- No character of a decimal digit string is an underscore. -/
theorem toDigitsCore_ne_underscore :
    ∀ (fuel n : ℕ) (ds : List Char), (∀ c ∈ ds, c ≠ '_') →
      ∀ c ∈ Nat.toDigitsCore 10 fuel n ds, c ≠ '_' := by
  intro fuel
  induction fuel with
  | zero => intro n ds h c hc; exact h c hc
  | succ f ih =>
      intro n ds h c hc
      simp only [Nat.toDigitsCore] at hc
      by_cases h0 : n / 10 = 0
      · rw [if_pos h0] at hc
        rcases List.mem_cons.mp hc with rfl | hc2
        · exact digitChar_mod_ne_underscore n
        · exact h c hc2
      · rw [if_neg h0] at hc
        refine ih (n / 10) _ ?_ c hc
        intro c2 hc2
        rcases List.mem_cons.mp hc2 with rfl | hc3
        · exact digitChar_mod_ne_underscore n
        · exact h c2 hc3

/-- `Nat.repr` is the decimal digit string. -/
theorem repr_data (n : ℕ) : (Nat.repr n).data = Nat.toDigits 10 n := rfl

/-- No character of `Nat.repr n` is an underscore. -/
theorem repr_ne_underscore (n : ℕ) : ∀ c ∈ (Nat.repr n).data, c ≠ '_' := by
  rw [repr_data]
  exact toDigitsCore_ne_underscore (n + 1) n [] (by intro c hc; cases hc)

/-- `Nat.repr` is injective. -/
theorem repr_inj (m n : ℕ) (h : Nat.repr m = Nat.repr n) : m = n := by
  have hd : Nat.toDigits 10 m = Nat.toDigits 10 n := by
    have hdata := congrArg String.data h
    rwa [repr_data, repr_data] at hdata
  have hv := congrArg digitsVal hd
  rwa [digitsVal_toDigits, digitsVal_toDigits] at hv

/-- Splitting at a separator character that occurs in neither prefix. -/
theorem append_sep_inj :
    ∀ (e1 e2 r1 r2 : List Char),
      (∀ c ∈ e1, c ≠ '_') → (∀ c ∈ e2, c ≠ '_') →
      e1 ++ '_' :: r1 = e2 ++ '_' :: r2 → e1 = e2 ∧ r1 = r2 := by
  intro e1
  induction e1 with
  | nil =>
      intro e2 r1 r2 _ h2 heq
      cases e2 with
      | nil => simpa using heq
      | cons d ds =>
          simp only [List.nil_append, List.cons_append, List.cons.injEq] at heq
          exact absurd heq.1.symm (h2 d (List.mem_cons_self _ _))
  | cons c cs ih =>
      intro e2 r1 r2 h1 h2 heq
      cases e2 with
      | nil =>
          simp only [List.cons_append, List.nil_append, List.cons.injEq] at heq
          exact absurd heq.1 (h1 c (List.mem_cons_self _ _))
      | cons d ds =>
          simp only [List.cons_append, List.cons.injEq] at heq
          obtain ⟨rfl, htl⟩ := heq
          obtain ⟨he, hr⟩ := ih ds r1 r2
            (fun x hx => h1 x (List.mem_cons_of_mem _ hx))
            (fun x hx => h2 x (List.mem_cons_of_mem _ hx)) htl
          exact ⟨by rw [he], hr⟩

/-- Two keys `label ++ "_" ++ str(id)` agree only when the ids agree (the id
digits follow the last underscore of the key). -/
theorem trackKey_inj (a b : String) (m n : ℕ)
    (h : a ++ "_" ++ Nat.repr m = b ++ "_" ++ Nat.repr n) : m = n := by
  have hus : ("_" : String).data = ['_'] := rfl
  have hd := congrArg String.data h
  simp only [String.data_append, hus, List.append_assoc] at hd
  have hrev : (Nat.repr m).data.reverse ++ '_' :: a.data.reverse =
      (Nat.repr n).data.reverse ++ '_' :: b.data.reverse := by
    have hr := congrArg List.reverse hd
    simpa [List.reverse_append] using hr
  have h1 : ∀ c ∈ (Nat.repr m).data.reverse, c ≠ '_' := by
    intro c hc
    exact repr_ne_underscore m c (List.mem_reverse.mp hc)
  have h2 : ∀ c ∈ (Nat.repr n).data.reverse, c ≠ '_' := by
    intro c hc
    exact repr_ne_underscore n c (List.mem_reverse.mp hc)
  obtain ⟨he, _⟩ := append_sep_inj _ _ _ _ h1 h2 hrev
  have hdm : (Nat.repr m).data = (Nat.repr n).data := by
    have hrr := congrArg List.reverse he
    simpa using hrr
  apply repr_inj
  cases hm : Nat.repr m with
  | mk l1 =>
      cases hn : Nat.repr n with
      | mk l2 =>
          rw [hm, hn] at hdm
          have hl : l1 = l2 := by simpa using hdm
          rw [hl]

end Digits

section FinalizeHelpers

variable {K : Type} [LinearOrderedField K]

/-- A finset sorts to the empty list exactly when it is empty. -/
theorem sort_eq_nil_iff (s : Finset ℕ) : s.sort (· ≤ ·) = [] ↔ s = ∅ := by
  constructor
  · intro h
    have hlen : (s.sort (· ≤ ·)).length = s.card := Finset.length_sort _
    rw [h] at hlen
    exact Finset.card_eq_zero.mp hlen.symm
  · intro h
    rw [h]
    exact Finset.sort_empty _

/-- A track whose point-index set is empty is dropped at finalize time. -/
theorem finalizeTrack_eq_none (mapPts : List (Vec3 K)) (tr : ObjectTrack K)
    (h : tr.pointIndices = ∅) : finalizeTrack mapPts tr = none := by
  unfold finalizeTrack
  rw [h, Finset.sort_empty]

/-- The record emitted for a track whose sorted point-index list is
`i :: is`, spelled out. -/
theorem finalizeTrack_eq_some (mapPts : List (Vec3 K)) (tr : ObjectTrack K)
    (i : ℕ) (is : List ℕ) (hs : tr.pointIndices.sort (· ≤ ·) = i :: is) :
    finalizeTrack mapPts tr = some (tr.label ++ "_" ++ Nat.repr tr.id,
      { label := tr.label
        center := vmean ((i :: is).map (ptAt mapPts))
        indices := i :: is
        numPoints := ((i :: is).map (ptAt mapPts)).length
        bboxMin := coordMin (ptAt mapPts i) (is.map (ptAt mapPts))
        bboxMax := coordMax (ptAt mapPts i) (is.map (ptAt mapPts))
        numObs := tr.numObs
        firstFrameIdx := tr.firstFrameIdx
        firstBbox := tr.firstBbox
        firstFramePath := tr.firstFramePath
        position := vmean ((i :: is).map (ptAt mapPts))
        size := vsub (coordMax (ptAt mapPts i) (is.map (ptAt mapPts)))
          (coordMin (ptAt mapPts i) (is.map (ptAt mapPts)))
        pointCloud := (i :: is).map (ptAt mapPts) }) := by
  unfold finalizeTrack
  rw [hs]

/-- Conversely, any emitted pair comes from a nonempty track and carries the
key `{label}_{id}`. -/
theorem finalizeTrack_some_inv (mapPts : List (Vec3 K)) (tr : ObjectTrack K)
    (kr : String × ObjectRecord K) (h : finalizeTrack mapPts tr = some kr) :
    tr.pointIndices.Nonempty ∧ kr.1 = tr.label ++ "_" ++ Nat.repr tr.id := by
  cases hsort : tr.pointIndices.sort (· ≤ ·) with
  | nil =>
      unfold finalizeTrack at h
      rw [hsort] at h
      cases h
  | cons i is =>
      rw [finalizeTrack_eq_some mapPts tr i is hsort] at h
      refine ⟨Finset.nonempty_iff_ne_empty.mpr ?_, ?_⟩
      · intro habs
        rw [habs, Finset.sort_empty] at hsort
        cases hsort
      · cases h
        rfl

/-- Summing a function over the sorted list of a finset equals the finset
sum. -/
theorem sum_map_sort (s : Finset ℕ) (f : ℕ → K) :
    ((s.sort (· ≤ ·)).map f).sum = ∑ i ∈ s, f i := by
  have hp : List.Perm ((s.sort (· ≤ ·)).map f) (s.toList.map f) :=
    (Finset.sort_perm_toList _ s).map f
  rw [hp.sum_eq]
  exact Finset.sum_to_list s f

/-- The componentwise form of a vector sum. -/
theorem vsum_components (l : List (Vec3 K)) :
    vsum l = ⟨(l.map Vec3.x).sum, (l.map Vec3.y).sum, (l.map Vec3.z).sum⟩ := by
  induction l with
  | nil => rfl
  | cons h t ih =>
      show vadd h (vsum t) = _
      rw [ih]
      simp [vadd]

/-- The running minimum is a lower bound of its seed and of every element. -/
theorem listMin_le (l : List K) :
    ∀ a : K, listMin a l ≤ a ∧ ∀ b ∈ l, listMin a l ≤ b := by
  induction l with
  | nil =>
      intro a
      exact ⟨le_refl a, by intro b hb; cases hb⟩
  | cons h t ih =>
      intro a
      have hstep : listMin a (h :: t) = listMin (min a h) t := rfl
      constructor
      · rw [hstep]
        exact le_trans (ih (min a h)).1 (min_le_left a h)
      · intro b hb
        rcases List.mem_cons.mp hb with rfl | hb2
        · rw [hstep]
          exact le_trans (ih (min a b)).1 (min_le_right a b)
        · rw [hstep]
          exact (ih (min a h)).2 b hb2

/-- The running minimum is attained at the seed or at some element. -/
theorem listMin_mem (l : List K) :
    ∀ a : K, listMin a l = a ∨ listMin a l ∈ l := by
  induction l with
  | nil => intro a; exact Or.inl rfl
  | cons h t ih =>
      intro a
      have hstep : listMin a (h :: t) = listMin (min a h) t := rfl
      rcases ih (min a h) with heq | hmem
      · rcases le_total a h with hle | hle
        · left
          rw [hstep, heq]
          exact min_eq_left hle
        · right
          rw [hstep, heq, min_eq_right hle]
          exact List.mem_cons_self _ _
      · right
        rw [hstep]
        exact List.mem_cons_of_mem _ hmem

/-- The running maximum is an upper bound of its seed and of every element. -/
theorem listMax_ge (l : List K) :
    ∀ a : K, a ≤ listMax a l ∧ ∀ b ∈ l, b ≤ listMax a l := by
  induction l with
  | nil =>
      intro a
      exact ⟨le_refl a, by intro b hb; cases hb⟩
  | cons h t ih =>
      intro a
      have hstep : listMax a (h :: t) = listMax (max a h) t := rfl
      constructor
      · rw [hstep]
        exact le_trans (le_max_left a h) (ih (max a h)).1
      · intro b hb
        rcases List.mem_cons.mp hb with rfl | hb2
        · rw [hstep]
          exact le_trans (le_max_right a b) (ih (max a b)).1
        · rw [hstep]
          exact (ih (max a h)).2 b hb2

/-- The running maximum is attained at the seed or at some element. -/
theorem listMax_mem (l : List K) :
    ∀ a : K, listMax a l = a ∨ listMax a l ∈ l := by
  induction l with
  | nil => intro a; exact Or.inl rfl
  | cons h t ih =>
      intro a
      have hstep : listMax a (h :: t) = listMax (max a h) t := rfl
      rcases ih (max a h) with heq | hmem
      · rcases le_total h a with hle | hle
        · left
          rw [hstep, heq]
          exact max_eq_left hle
        · right
          rw [hstep, heq]
          rw [max_eq_right hle]
          exact List.mem_cons_self _ _
      · right
        rw [hstep]
        exact List.mem_cons_of_mem _ hmem

end FinalizeHelpers

section FinalizeStructure

variable {K : Type} [LinearOrderedField K]

/-- Exactly the tracks with a nonempty point-index set contribute a record. -/
theorem buildObjectMap_length (mapPts : List (Vec3 K)) :
    ∀ tracks : List (ObjectTrack K),
      (buildObjectMapFromTracks mapPts tracks).length =
        (tracks.filter (fun tr => decide (tr.pointIndices ≠ ∅))).length := by
  intro tracks
  induction tracks with
  | nil => rfl
  | cons hd tl ih =>
      by_cases h : hd.pointIndices = ∅
      · have hfin := finalizeTrack_eq_none mapPts hd h
        have hstep : buildObjectMapFromTracks mapPts (hd :: tl) =
            buildObjectMapFromTracks mapPts tl := by
          unfold buildObjectMapFromTracks
          rw [List.filterMap_cons, hfin]
        have hfil : (hd :: tl).filter (fun tr => decide (tr.pointIndices ≠ ∅)) =
            tl.filter (fun tr => decide (tr.pointIndices ≠ ∅)) := by
          rw [List.filter_cons]
          simp [h]
        rw [hstep, hfil, ih]
      · cases hkr : finalizeTrack mapPts hd with
        | none =>
            obtain ⟨i, is, hsort⟩ : ∃ i is,
                hd.pointIndices.sort (· ≤ ·) = i :: is := by
              cases hs : hd.pointIndices.sort (· ≤ ·) with
              | nil => exact absurd ((sort_eq_nil_iff _).mp hs) h
              | cons i is => exact ⟨i, is, rfl⟩
            rw [finalizeTrack_eq_some mapPts hd i is hsort] at hkr
            cases hkr
        | some kr =>
            have hstep : buildObjectMapFromTracks mapPts (hd :: tl) =
                kr :: buildObjectMapFromTracks mapPts tl := by
              unfold buildObjectMapFromTracks
              rw [List.filterMap_cons, hkr]
            have hfil : (hd :: tl).filter
                (fun tr => decide (tr.pointIndices ≠ ∅)) =
                hd :: tl.filter (fun tr => decide (tr.pointIndices ≠ ∅)) := by
              rw [List.filter_cons]
              simp [h]
            rw [hstep, hfil, List.length_cons, List.length_cons, ih]

/-- With pairwise-distinct track ids, the emitted keys are pairwise
distinct. -/
theorem buildObjectMap_keys_nodup (mapPts : List (Vec3 K)) :
    ∀ tracks : List (ObjectTrack K),
      tracks.Pairwise (fun a b => a.id ≠ b.id) →
      ((buildObjectMapFromTracks mapPts tracks).map Prod.fst).Nodup := by
  intro tracks
  induction tracks with
  | nil => intro _; simp [buildObjectMapFromTracks]
  | cons hd tl ih =>
      intro hpw
      obtain ⟨hhd, hpw2⟩ := List.pairwise_cons.mp hpw
      cases hkr : finalizeTrack mapPts hd with
      | none =>
          have hstep : buildObjectMapFromTracks mapPts (hd :: tl) =
              buildObjectMapFromTracks mapPts tl := by
            unfold buildObjectMapFromTracks
            rw [List.filterMap_cons, hkr]
          rw [hstep]
          exact ih hpw2
      | some kr =>
          have hkey := (finalizeTrack_some_inv mapPts hd kr hkr).2
          have hstep : buildObjectMapFromTracks mapPts (hd :: tl) =
              kr :: buildObjectMapFromTracks mapPts tl := by
            unfold buildObjectMapFromTracks
            rw [List.filterMap_cons, hkr]
          rw [hstep, List.map_cons, List.nodup_cons]
          refine ⟨?_, ih hpw2⟩
          intro habs
          rw [List.mem_map] at habs
          obtain ⟨kr2, hkr2mem, hkeq⟩ := habs
          have hkr2mem2 := hkr2mem
          unfold buildObjectMapFromTracks at hkr2mem2
          rw [List.mem_filterMap] at hkr2mem2
          obtain ⟨tr2, htr2, hfin2⟩ := hkr2mem2
          have hkey2 := (finalizeTrack_some_inv mapPts tr2 kr2 hfin2).2
          have hids : tr2.id = hd.id :=
            trackKey_inj tr2.label hd.label tr2.id hd.id
              (by rw [← hkey2, hkeq, hkey])
          exact hhd tr2 htr2 hids.symm

/-- Finalization reads nothing from the EMA-tracked centroid. -/
theorem finalizeTrack_center3d_irrelevant (mapPts : List (Vec3 K))
    (tr : ObjectTrack K) (v : Vec3 K) :
    finalizeTrack mapPts { tr with center3d := v } = finalizeTrack mapPts tr :=
  rfl

/-- Replacing every track's EMA centroid leaves the finalized map
unchanged. -/
theorem buildObjectMap_center3d_irrelevant (mapPts : List (Vec3 K))
    (tracks : List (ObjectTrack K)) (f : ObjectTrack K → Vec3 K) :
    buildObjectMapFromTracks mapPts
      (tracks.map (fun t => { t with center3d := f t })) =
    buildObjectMapFromTracks mapPts tracks := by
  unfold buildObjectMapFromTracks
  rw [List.filterMap_map]
  have hcomp : (finalizeTrack mapPts ∘ fun t => { t with center3d := f t }) =
      finalizeTrack mapPts :=
    funext (fun t => finalizeTrack_center3d_irrelevant mapPts t (f t))
  rw [hcomp]

end FinalizeStructure

section C5

variable {K : Type} [LinearOrderedField K]

/-- The seeded running minimum over mapped coordinates is a lower bound and
is attained. -/
theorem listMin_attained (g : Vec3 K → K) (p : Vec3 K) (ps : List (Vec3 K)) :
    (listMin (g p) (ps.map g) ≤ g p ∧
      ∀ q ∈ ps, listMin (g p) (ps.map g) ≤ g q) ∧
    (∃ q, (q = p ∨ q ∈ ps) ∧ listMin (g p) (ps.map g) = g q) := by
  have h1 := listMin_le (ps.map g) (g p)
  have h2 := listMin_mem (ps.map g) (g p)
  refine ⟨⟨h1.1, fun q hq => h1.2 (g q) (List.mem_map_of_mem g hq)⟩, ?_⟩
  rcases h2 with heq | hmem
  · exact ⟨p, Or.inl rfl, heq⟩
  · obtain ⟨q, hq, hgq⟩ := List.mem_map.mp hmem
    exact ⟨q, Or.inr hq, hgq.symm⟩

/-- The seeded running maximum over mapped coordinates is an upper bound and
is attained. -/
theorem listMax_attained (g : Vec3 K → K) (p : Vec3 K) (ps : List (Vec3 K)) :
    (g p ≤ listMax (g p) (ps.map g) ∧
      ∀ q ∈ ps, g q ≤ listMax (g p) (ps.map g)) ∧
    (∃ q, (q = p ∨ q ∈ ps) ∧ listMax (g p) (ps.map g) = g q) := by
  have h1 := listMax_ge (ps.map g) (g p)
  have h2 := listMax_mem (ps.map g) (g p)
  refine ⟨⟨h1.1, fun q hq => h1.2 (g q) (List.mem_map_of_mem g hq)⟩, ?_⟩
  rcases h2 with heq | hmem
  · exact ⟨p, Or.inl rfl, heq⟩
  · obtain ⟨q, hq, hgq⟩ := List.mem_map.mp hmem
    exact ⟨q, Or.inr hq, hgq.symm⟩

/-- Indices of the sorted list are members of the finset, head included. -/
theorem sort_cons_mem (s : Finset ℕ) (i : ℕ) (is : List ℕ)
    (hsort : s.sort (· ≤ ·) = i :: is) :
    i ∈ s ∧ ∀ j ∈ is, j ∈ s := by
  constructor
  · have : i ∈ s.sort (· ≤ ·) := by
      rw [hsort]
      exact List.mem_cons_self _ _
    exact (Finset.mem_sort _).mp this
  · intro j hj
    have : j ∈ s.sort (· ≤ ·) := by
      rw [hsort]
      exact List.mem_cons_of_mem _ hj
    exact (Finset.mem_sort _).mp this

/-- A point of the mapped sorted tail comes from an index of the finset. -/
theorem attained_index (mapPts : List (Vec3 K)) (s : Finset ℕ) (i : ℕ)
    (is : List ℕ) (hsort : s.sort (· ≤ ·) = i :: is) (q : Vec3 K)
    (hq : q = ptAt mapPts i ∨ q ∈ is.map (ptAt mapPts)) :
    ∃ j ∈ s, ptAt mapPts j = q := by
  obtain ⟨hi, his⟩ := sort_cons_mem s i is hsort
  rcases hq with rfl | hmem
  · exact ⟨i, hi, rfl⟩
  · obtain ⟨j, hj, hgj⟩ := List.mem_map.mp hmem
    exact ⟨j, his j hj, hgj⟩

/-- **C5.** At finalization, every track with a nonempty point-index set
emits exactly one record under the key `{label}_{id}`, whose `center`,
`bbox_min`, `bbox_max`, `size` and `num_points` are computed directly from
the full aggregated point set (mean, attained coordinatewise extrema,
`bbox_max − bbox_min`, set cardinality) and not from the EMA-tracked
centroid (which the output provably does not depend on); tracks with an
empty point set are dropped; and all emitted keys are pairwise distinct. -/
theorem buildObjectMap_finalize_spec (mapPts : List (Vec3 K))
    (tracks : List (ObjectTrack K))
    (hids : tracks.Pairwise (fun a b => a.id ≠ b.id)) :
    FinalizeSpec mapPts tracks := by
  refine ⟨?_, ?_, buildObjectMap_length mapPts tracks,
    buildObjectMap_keys_nodup mapPts tracks hids,
    buildObjectMap_center3d_irrelevant mapPts tracks⟩
  · intro tr htr hne
    obtain ⟨i, is, hsort⟩ : ∃ i is, tr.pointIndices.sort (· ≤ ·) = i :: is := by
      cases hs : tr.pointIndices.sort (· ≤ ·) with
      | nil =>
          exact absurd ((sort_eq_nil_iff _).mp hs)
            (Finset.nonempty_iff_ne_empty.mp hne)
      | cons i is => exact ⟨i, is, rfl⟩
    have hfin := finalizeTrack_eq_some mapPts tr i is hsort
    have hlen : ((i :: is).map (ptAt mapPts)).length = tr.pointIndices.card := by
      rw [List.length_map, ← hsort, Finset.length_sort]
    have hsum : ∀ g : Vec3 K → K,
        (((i :: is).map (ptAt mapPts)).map g).sum =
          ∑ j ∈ tr.pointIndices, g (ptAt mapPts j) := by
      intro g
      rw [List.map_map, ← hsort, sum_map_sort]
      rfl
    have hcenter : vmean ((i :: is).map (ptAt mapPts)) =
        vsmul (1 / (tr.pointIndices.card : K))
          ⟨∑ j ∈ tr.pointIndices, (ptAt mapPts j).x,
           ∑ j ∈ tr.pointIndices, (ptAt mapPts j).y,
           ∑ j ∈ tr.pointIndices, (ptAt mapPts j).z⟩ := by
      unfold vmean
      rw [vsum_components, hlen, hsum Vec3.x, hsum Vec3.y, hsum Vec3.z]
    refine ⟨_, List.mem_filterMap.mpr ⟨tr, htr, hfin⟩, rfl, rfl, rfl, rfl, rfl,
      ?_, ?_, rfl, ?_, ?_, rfl, ?_⟩
    · exact hlen
    · exact hcenter
    · -- coordinatewise bounds
      intro i0 hi0
      have hi0s : i0 ∈ tr.pointIndices.sort (· ≤ ·) :=
        (Finset.mem_sort _).mpr hi0
      rw [hsort] at hi0s
      have hminx := (listMin_attained Vec3.x (ptAt mapPts i) (is.map (ptAt mapPts))).1
      have hminy := (listMin_attained Vec3.y (ptAt mapPts i) (is.map (ptAt mapPts))).1
      have hminz := (listMin_attained Vec3.z (ptAt mapPts i) (is.map (ptAt mapPts))).1
      have hmaxx := (listMax_attained Vec3.x (ptAt mapPts i) (is.map (ptAt mapPts))).1
      have hmaxy := (listMax_attained Vec3.y (ptAt mapPts i) (is.map (ptAt mapPts))).1
      have hmaxz := (listMax_attained Vec3.z (ptAt mapPts i) (is.map (ptAt mapPts))).1
      rcases List.mem_cons.mp hi0s with rfl | hi0t
      · exact ⟨hminx.1, hmaxx.1, hminy.1, hmaxy.1, hminz.1, hmaxz.1⟩
      · have hq : ptAt mapPts i0 ∈ is.map (ptAt mapPts) :=
          List.mem_map_of_mem _ hi0t
        exact ⟨hminx.2 _ hq, hmaxx.2 _ hq, hminy.2 _ hq, hmaxy.2 _ hq,
          hminz.2 _ hq, hmaxz.2 _ hq⟩
    · -- attained extrema
      have hminx := (listMin_attained Vec3.x (ptAt mapPts i) (is.map (ptAt mapPts))).2
      have hminy := (listMin_attained Vec3.y (ptAt mapPts i) (is.map (ptAt mapPts))).2
      have hminz := (listMin_attained Vec3.z (ptAt mapPts i) (is.map (ptAt mapPts))).2
      have hmaxx := (listMax_attained Vec3.x (ptAt mapPts i) (is.map (ptAt mapPts))).2
      have hmaxy := (listMax_attained Vec3.y (ptAt mapPts i) (is.map (ptAt mapPts))).2
      have hmaxz := (listMax_attained Vec3.z (ptAt mapPts i) (is.map (ptAt mapPts))).2
      refine ⟨?_, ?_, ?_, ?_, ?_, ?_⟩
      · obtain ⟨q, hq, heq⟩ := hminx
        obtain ⟨j, hj, hje⟩ := attained_index mapPts tr.pointIndices i is hsort q
          (by rcases hq with h | h
              · exact Or.inl h
              · exact Or.inr h)
        exact ⟨j, hj, by simp only [coordMin, coordMax]; rw [heq, hje]⟩
      · obtain ⟨q, hq, heq⟩ := hminy
        obtain ⟨j, hj, hje⟩ := attained_index mapPts tr.pointIndices i is hsort q hq
        exact ⟨j, hj, by simp only [coordMin, coordMax]; rw [heq, hje]⟩
      · obtain ⟨q, hq, heq⟩ := hminz
        obtain ⟨j, hj, hje⟩ := attained_index mapPts tr.pointIndices i is hsort q hq
        exact ⟨j, hj, by simp only [coordMin, coordMax]; rw [heq, hje]⟩
      · obtain ⟨q, hq, heq⟩ := hmaxx
        obtain ⟨j, hj, hje⟩ := attained_index mapPts tr.pointIndices i is hsort q hq
        exact ⟨j, hj, by simp only [coordMin, coordMax]; rw [heq, hje]⟩
      · obtain ⟨q, hq, heq⟩ := hmaxy
        obtain ⟨j, hj, hje⟩ := attained_index mapPts tr.pointIndices i is hsort q hq
        exact ⟨j, hj, by simp only [coordMin, coordMax]; rw [heq, hje]⟩
      · obtain ⟨q, hq, heq⟩ := hmaxz
        obtain ⟨j, hj, hje⟩ := attained_index mapPts tr.pointIndices i is hsort q hq
        exact ⟨j, hj, by simp only [coordMin, coordMax]; rw [heq, hje]⟩
    · rfl
  · intro kr hkr
    have hkr2 := hkr
    unfold buildObjectMapFromTracks at hkr2
    rw [List.mem_filterMap] at hkr2
    obtain ⟨tr, htr, hfin⟩ := hkr2
    obtain ⟨hne, hkey⟩ := finalizeTrack_some_inv mapPts tr kr hfin
    exact ⟨tr, htr, hne, hkey⟩

/-- Witness for C5 at a concrete single-track input. -/
theorem buildObjectMap_finalize_spec_witness : FinalizeSpec exPts [exTrackA] :=
  buildObjectMap_finalize_spec exPts [exTrackA] (by simp)

end C5
